import Mathlib

/-!
Shallow embedding of the whyrusleeping/cbor Go codec (src/go/encoder.go,
src/go/decoder.go, constants from src/go/cbor.go).

Modelling conventions:
* a byte is a `Nat` below 256, a byte stream is a `List Nat`;
* Go `uint64` quantities are `Nat`, with the places where Go truncates
  written out explicitly; Go `int64` is `Int`, with the wrap-around
  conversion `int64(u)` made explicit (`toInt64`);
* `float64` values are represented by their IEEE-754 bit patterns
  (math.Float64bits / math.Float64frombits are mutually inverse, so a
  float64 variable and its bit pattern carry the same information);
  the half-float branch, which computes a float64 value arithmetically,
  is modelled by its exact value (`HalfVal`);
* fallible operations (I/O errors, type mismatches) return `Option`:
  `none` is an error return, `some` is success;
* writers return the list of emitted bytes; readers take the remaining
  stream and return the parsed result plus the unconsumed tail;
* the decoder's recursion is bounded by an explicit fuel parameter
  (the Go code recurses on the shrinking input stream).
-/

namespace Cbor

/-! ### Constants (src/go/cbor.go) -/

def typeMask : Nat := 0xE0
def infoBits : Nat := 0x1F

def cborUint : Nat := 0x00
def cborNegint : Nat := 0x20
def cborBytes : Nat := 0x40
def cborText : Nat := 0x60
def cborArray : Nat := 0x80
def cborMap : Nat := 0xA0
def cborTag : Nat := 0xC0
def cbor7 : Nat := 0xE0

def cborFalse : Nat := 20
def cborTrue : Nat := 21
def cborNull : Nat := 22

def int8Follows : Nat := 24
def int16Follows : Nat := 25
def int32Follows : Nat := 26
def int64Follows : Nat := 27
def varFollows : Nat := 31

def tagBignum : Nat := 2
def tagNegBignum : Nat := 3
def tagDecimal : Nat := 4
def tagBigfloat : Nat := 5

/-! ### Wire-primitive writers (src/go/encoder.go, tagAuxOut / tagAux64) -/

/-- Encoder.tagAux64: initial byte `tag | 27` followed by eight big-endian
bytes of `x`. -/
def tagAux64 (tag x : Nat) : List Nat :=
  [tag ||| int64Follows,
   (x >>> 56) &&& 0x0ff, (x >>> 48) &&& 0x0ff, (x >>> 40) &&& 0x0ff,
   (x >>> 32) &&& 0x0ff, (x >>> 24) &&& 0x0ff, (x >>> 16) &&& 0x0ff,
   (x >>> 8) &&& 0x0ff, x &&& 0x0ff]

/-- Encoder.tagAuxOut: initial byte plus auxiliary bytes for an unsigned
quantity `x`.  Note the source's comparison constants are `0x0ff`,
`0x0ffff` and `0x0ffffffff`, i.e. `2^8 - 1`, `2^16 - 1` and `2^32 - 1`. -/
def tagAuxOut (tag x : Nat) : List Nat :=
  if x ≤ 23 then
    [tag ||| x]
  else if x < 0x0ff then
    [tag ||| int8Follows, x &&& 0x0ff]
  else if x < 0x0ffff then
    [tag ||| int16Follows, (x >>> 8) &&& 0x0ff, x &&& 0x0ff]
  else if x < 0x0ffffffff then
    [tag ||| int32Follows,
     (x >>> 24) &&& 0x0ff, (x >>> 16) &&& 0x0ff, (x >>> 8) &&& 0x0ff, x &&& 0x0ff]
  else
    tagAux64 tag x

/-- Encoder.writeInt. -/
def writeInt (x : Int) : List Nat :=
  if x < 0 then tagAuxOut cborNegint (-1 - x).toNat
  else tagAuxOut cborUint x.toNat

/-- Encoder.writeText: header with the byte length, then the UTF-8 bytes
(strings are modelled as their byte sequences). -/
def writeText (x : List Nat) : List Nat :=
  tagAuxOut cborText x.length ++ x

/-- Encoder.writeBytes. -/
def writeBytes (x : List Nat) : List Nat :=
  tagAuxOut cborBytes x.length ++ x

/-- Encoder.writeFloat: always an 8-byte double; the argument is the
IEEE-754 bit pattern (math.Float64bits of the Go value). -/
def writeFloat (bits : Nat) : List Nat :=
  tagAux64 cbor7 bits

/-- Encoder.writeBool. -/
def writeBool (x : Bool) : List Nat :=
  if x then tagAuxOut cbor7 cborTrue else tagAuxOut cbor7 cborFalse

/-! ### Canonical map-key ordering (src/go/encoder.go, cborKeySorter) -/

/-- keyBytesFromEncoded: strip the initial byte and length bytes from an
encoded key, keeping only the payload.  The source panics on info values
28-30; that branch is unreachable for encoder-produced keys and is
modelled as the empty payload. -/
def keyBytesFromEncoded (data : List Nat) : List Nat :=
  let cborInfo := data.headD 0 &&& infoBits
  if cborInfo ≤ 23 then data.drop 1
  else if cborInfo = int8Follows then data.drop 2
  else if cborInfo = int16Follows then data.drop 3
  else if cborInfo = int32Follows then data.drop 5
  else if cborInfo = int64Follows then data.drop 9
  else []

/-- bytes.Compare(a, b) < 0: strict lexicographic byte order. -/
def bytesCompareLt : List Nat → List Nat → Bool
  | [], [] => false
  | [], _ :: _ => true
  | _ :: _, [] => false
  | a :: as, b :: bs => if a < b then true else if b < a then false else bytesCompareLt as bs

/-- cborKeySorter.Less on two encoded keys: compare stripped payloads,
shorter first, then lexicographically. -/
def cborKeySorterLess (x y : List Nat) : Bool :=
  let a := keyBytesFromEncoded x
  let b := keyBytesFromEncoded y
  if a.length < b.length then true
  else if b.length < a.length then false
  else bytesCompareLt a b

/-- The non-strict order realised by sort.Sort(cborKeySorter ...): entry
`a` may precede entry `b` iff `Less b a` is false.  Entries are
(encoded key bytes, encoded value bytes) pairs. -/
def keyPairLe (a b : List Nat × List Nat) : Prop :=
  cborKeySorterLess b.1 a.1 = false

instance : DecidableRel keyPairLe := fun a b => by
  unfold keyPairLe; infer_instance

/-- sort.Sort(cborKeySorter(encKeys)) sorts the pre-encoded key table so
that no entry is Less than a predecessor; with pairwise distinct keys the
sorted permutation is unique, and it is realised here by insertion sort. -/
def sortPairs (l : List (List Nat × List Nat)) : List (List Nat × List Nat) :=
  l.insertionSort keyPairLe

/-! ### Caller-side shapes and values

The universe of concretely typed Go caller shapes the embedding covers:
fixed-width signed and unsigned integers, float64 (by bit pattern),
string, []byte, bool, slices, string-keyed maps, and structs.  Struct
field names are carried already resolved (the `fieldname` tag-resolution
helper is not part of the source under src/; per the spec it yields the
declared name for plain exported fields). -/

inductive Ty : Type where
  | tuint : Nat → Ty
  | tint : Nat → Ty
  | tfloat64 : Ty
  | tstr : Ty
  | tbytes : Ty
  | tbool : Ty
  | tarr : Ty → Ty
  | tmap : Ty → Ty
  | tstruct : List (List Nat × Ty) → Ty

/-- Emission loop after sorting: each pre-encoded key verbatim, followed
by the entry's encoded value. -/
def emitPairs : List (List Nat × List Nat) → List Nat
  | [] => []
  | (k, v) :: r => k ++ v ++ emitPairs r

inductive V : Type where
  | vuint : Nat → Nat → V
  | vint : Nat → Int → V
  | vf64 : Nat → V
  | vstr : List Nat → V
  | vbytes : List Nat → V
  | vbool : Bool → V
  | varr : List V → V
  | vmap : List (List Nat × V) → V
  | vstruct : List (List Nat × V) → V

mutual

/-- Encoder.Encode / Encoder.writeReflection on the value universe. -/
def encodeV : V → List Nat
  | .vuint _ u => tagAuxOut cborUint u
  | .vint _ i => writeInt i
  | .vf64 bits => writeFloat bits
  | .vstr s => writeText s
  | .vbytes b => writeBytes b
  | .vbool b => writeBool b
  | .varr xs => tagAuxOut cborArray xs.length ++ encodeList xs
  | .vmap kvs =>
      tagAuxOut cborMap kvs.length ++ emitPairs (sortPairs (encodePairs kvs))
  | .vstruct fs => tagAuxOut cborMap fs.length ++ encodeFields fs

/-- The elements of a slice, encoded in order. -/
def encodeList : List V → List Nat
  | [] => []
  | v :: vs => encodeV v ++ encodeList vs

/-- The map branch of writeReflection first encodes every key into its
own buffer; the values are encoded when the sorted table is emitted, and
since encoding is a pure function they are pre-encoded here alongside. -/
def encodePairs : List (List Nat × V) → List (List Nat × List Nat)
  | [] => []
  | (k, v) :: kvs => (writeText k, encodeV v) :: encodePairs kvs

/-- The struct branch of writeReflection: field name as text, then the
field value, in declaration order (no sorting). -/
def encodeFields : List (List Nat × V) → List Nat
  | [] => []
  | (n, v) :: fs => writeText n ++ encodeV v ++ encodeFields fs

end

/-- writeReflection's map branch for a uint-keyed map (map[uintN]T):
each key is pre-encoded with tagAuxOut cborUint (writeObject's Uint
path), then the entry table is sorted by cborKeySorter and emitted —
the very same branch as for any other key type, only the key encoder
differs.  Every such encoded key is header-only, so cborKeySorter
strips each one to the empty payload. -/
def encodeUintMap (kvs : List (Nat × V)) : List Nat :=
  tagAuxOut cborMap kvs.length ++
    emitPairs (sortPairs (kvs.map (fun e => (tagAuxOut cborUint e.1, encodeV e.2))))

/-! ### Decoder wire primitives (src/go/decoder.go) -/

/-- io.ReadFull of `n` bytes: all-or-nothing. -/
def readFull (n : Nat) (s : List Nat) : Option (List Nat × List Nat) :=
  if s.length < n then none else some (s.take n, s.drop n)

/-- Decoder.handleInfoBits: decode the low-5-bit info field into the
auxiliary unsigned quantity, reading 0/1/2/4/8 follow-on bytes.  The
source's 8-byte shift loop is unrolled.  For info values 28-31 the
source's final `return 0, nil` yields aux 0 and no error. -/
def handleInfoBits (cborInfo : Nat) (s : List Nat) : Option (Nat × List Nat) :=
  if cborInfo ≤ 23 then some (cborInfo, s)
  else if cborInfo = int8Follows then
    match s with
    | b0 :: r => some (b0, r)
    | _ => none
  else if cborInfo = int16Follows then
    match s with
    | b0 :: b1 :: r => some ((b0 <<< 8) ||| b1, r)
    | _ => none
  else if cborInfo = int32Follows then
    match s with
    | b0 :: b1 :: b2 :: b3 :: r =>
        some ((b0 <<< 24) ||| (b1 <<< 16) ||| (b2 <<< 8) ||| b3, r)
    | _ => none
  else if cborInfo = int64Follows then
    match s with
    | b0 :: b1 :: b2 :: b3 :: b4 :: b5 :: b6 :: b7 :: r =>
        some ((b0 <<< 56) ||| (b1 <<< 48) ||| (b2 <<< 40) ||| (b3 <<< 32) |||
              (b4 <<< 24) ||| (b5 <<< 16) ||| (b6 <<< 8) ||| b7, r)
    | _ => none
  else some (0, s)

/-- Decoder.decodeBignum: the wrapped item must be a byte string; its
bytes are folded big-endian into a magnitude. -/
def decodeBignum (c : Nat) (s : List Nat) : Option (Nat × List Nat) :=
  let cborType := c &&& typeMask
  let cborInfo := c &&& infoBits
  match handleInfoBits cborInfo s with
  | none => none
  | some (aux, s1) =>
    if cborType ≠ cborBytes then none
    else
      match readFull aux s1 with
      | none => none
      | some (rawbytes, s2) =>
          some (rawbytes.foldl (fun bn bv => (bn <<< 8) ||| bv) 0, s2)

/-! ### Half-float decoding (src/go/decoder.go, cbor7 info 25)

The source computes a float64 value with math.Ldexp; all values in its
range are exactly representable, so the computed double is modelled by
its exact value. -/

inductive HalfVal : Type where
  | fin : ℚ → HalfVal
  | inf : HalfVal
  | neginf : HalfVal
  | nan : HalfVal
deriving DecidableEq

/-- Go float64 negation on the values a half-float can produce. -/
def negHalf : HalfVal → HalfVal
  | .fin q => .fin (-q)
  | .inf => .neginf
  | .neginf => .inf
  | .nan => .nan

/-- The cbor7 info-25 branch of Decoder.innerDecodeC on the 16-bit
payload `aux`. -/
def decodeHalf (aux : Nat) : HalfVal :=
  let exp := (aux >>> 10) &&& 0x01f
  let mant := aux &&& 0x03ff
  let val : HalfVal :=
    if exp = 0 then .fin ((mant : ℚ) * 2 ^ (-24 : ℤ))
    else if exp ≠ 31 then .fin (((mant : ℚ) + 1024) * 2 ^ ((exp : ℤ) - 25))
    else if mant = 0 then .inf
    else .nan
  if aux &&& 0x08000 ≠ 0 then negHalf val else val

/-! ### Numeric deposit into typed targets (setUint / setInt / setBignum,
src/go/decoder.go) -/

/-- Go's int64(u) conversion: two's-complement wrap-around. -/
def toInt64 (u : Nat) : Int :=
  if u < 2 ^ 63 then (u : Int) else (u : Int) - 2 ^ 64

/-- reflect.Value.OverflowUint for a `w`-bit unsigned target. -/
def overflowUint (w : Nat) (u : Nat) : Bool :=
  decide (2 ^ w - 1 < u)

/-- reflect.Value.OverflowInt for a `w`-bit signed target. -/
def overflowInt (w : Nat) (i : Int) : Bool :=
  decide (i < -(2 ^ (w - 1))) || decide (2 ^ (w - 1) - 1 < i)

/-- big.Int.BitLen: the bit length of the absolute value. -/
def bitLen (z : Int) : Nat := z.natAbs.size

/-- setUint on a concretely typed target. -/
def setUintTy (t : Ty) (u : Nat) : Option V :=
  match t with
  | .tuint w => if overflowUint w u then none else some (.vuint w u)
  | .tint w =>
      if u = 0xffffffffffffffff || overflowInt w (toInt64 u) then none
      else some (.vint w (toInt64 u))
  | _ => none

/-- setInt on a concretely typed target. -/
def setIntTy (t : Ty) (i : Int) : Option V :=
  match t with
  | .tint w => if overflowInt w i then none else some (.vint w i)
  | _ => none

/-- setBignum on a concretely typed target: only 32- and 64-bit signed
targets accept a bignum, and only when its bit length is strictly below
the width. -/
def setBignumTy (t : Ty) (z : Int) : Option V :=
  match t with
  | .tint 32 => if bitLen z < 32 then some (.vint 32 z) else none
  | .tint 64 => if bitLen z < 64 then some (.vint 64 z) else none
  | _ => none

/-- setBytes on a concretely typed target: a byte-slice target takes the
buffer, a string target takes string(buf). -/
def setBytesTy (t : Ty) (buf : List Nat) : Option V :=
  match t with
  | .tbytes => some (.vbytes buf)
  | .tstr => some (.vstr buf)
  | _ => none

/-! ### Dynamic (interface{}) decode results -/

inductive GoValue : Type where
  | vuint : Nat → GoValue
  | vint : Int → GoValue
  | vbignum : Int → GoValue
  | vbytes : List Nat → GoValue
  | vstr : List Nat → GoValue
  | vbool : Bool → GoValue
  | vnull : GoValue
  | vf32 : Nat → GoValue
  | vf64 : Nat → GoValue
  | vhalf : HalfVal → GoValue
  | varr : List GoValue → GoValue
  | vmap : List (GoValue × GoValue) → GoValue
  | vtag : Nat → GoValue → GoValue

mutual

/-- Go interface equality on decoded dynamic values (same dynamic type
and equal value), used by SetMapIndex. -/
def gvBeq : GoValue → GoValue → Bool
  | .vuint a, .vuint b => a == b
  | .vint a, .vint b => a == b
  | .vbignum a, .vbignum b => a == b
  | .vbytes a, .vbytes b => a == b
  | .vstr a, .vstr b => a == b
  | .vbool a, .vbool b => a == b
  | .vnull, .vnull => true
  | .vf32 a, .vf32 b => a == b
  | .vf64 a, .vf64 b => a == b
  | .vhalf a, .vhalf b => decide (a = b)
  | .varr a, .varr b => gvListBeq a b
  | .vmap a, .vmap b => gvPairsBeq a b
  | .vtag t a, .vtag u b => t == u && gvBeq a b
  | _, _ => false

def gvListBeq : List GoValue → List GoValue → Bool
  | [], [] => true
  | a :: as, b :: bs => gvBeq a b && gvListBeq as bs
  | _, _ => false

def gvPairsBeq : List (GoValue × GoValue) → List (GoValue × GoValue) → Bool
  | [], [] => true
  | (ka, va) :: as, (kb, vb) :: bs => gvBeq ka kb && gvBeq va vb && gvPairsBeq as bs
  | _, _ => false

end

/-- SetReflectValueForKey: a byte-slice key is reinterpreted as a
string before insertion. -/
def goKeyNorm : GoValue → GoValue
  | .vbytes b => .vstr b
  | k => k

/-- reflect.Value.SetMapIndex on the dynamic map: replace the value of
an existing equal key, otherwise add the entry. -/
def goMapSet (m : List (GoValue × GoValue)) (k v : GoValue) : List (GoValue × GoValue) :=
  match m with
  | [] => [(k, v)]
  | (k0, v0) :: r => if gvBeq k0 k then (k0, v) :: r else (k0, v0) :: goMapSet r k v

/-- SetMapIndex on a string-keyed typed map. -/
def tyMapSet (m : List (List Nat × V)) (k : List Nat) (v : V) : List (List Nat × V) :=
  match m with
  | [] => [(k, v)]
  | (k0, v0) :: r => if k0 == k then (k0, v) :: r else (k0, v0) :: tyMapSet r k v

/-! ### Struct targets (structAssigner, src/go/decoder.go) -/

/-- strings.EqualFold on field names, restricted to ASCII case folding
(field names and wire keys in this development are ASCII). -/
def asciiLower (b : Nat) : Nat := if 65 ≤ b ∧ b ≤ 90 then b + 32 else b

def eqFold (a b : List Nat) : Bool := a.map asciiLower == b.map asciiLower

/-- structAssigner.ReflectValueForKey's per-field test:
`fieldname == skey || strings.EqualFold(fieldname, skey)`. -/
def fieldMatch (fieldname skey : List Nat) : Bool :=
  fieldname == skey || eqFold fieldname skey

/-- structAssigner.ReflectValueForKey: scan the fields in declaration
order and return the first match, or nothing when the key binds to no
field. -/
def structFieldFind : List (List Nat × Ty) → List Nat → Option (List Nat × Ty)
  | [], _ => none
  | (fn, ft) :: fs, k => if fieldMatch fn k then some (fn, ft) else structFieldFind fs k

/-- Current value of a struct field (FieldByName). -/
def getFieldD : List (List Nat × V) → List Nat → V → V
  | [], _, d => d
  | (fn, fv) :: fs, k, d => if fn == k then fv else getFieldD fs k d

/-- Writing through a struct field's reflect handle. -/
def setField : List (List Nat × V) → List Nat → V → List (List Nat × V)
  | [], _, _ => []
  | (fn, fv) :: fs, k, v => if fn == k then (fn, v) :: fs else (fn, fv) :: setField fs k v

mutual

/-- The Go zero value of each target shape (what reflect.New allocates
and what setNil writes). -/
def zeroOfTy : Ty → V
  | .tuint w => .vuint w 0
  | .tint w => .vint w 0
  | .tfloat64 => .vf64 0
  | .tstr => .vstr []
  | .tbytes => .vbytes []
  | .tbool => .vbool false
  | .tarr _ => .varr []
  | .tmap _ => .vmap []
  | .tstruct fs => .vstruct (zeroFields fs)

def zeroFields : List (List Nat × Ty) → List (List Nat × V)
  | [] => []
  | (n, t) :: fs => (n, zeroOfTy t) :: zeroFields fs

end

/-! ### Non-recursive branch helpers of innerDecodeC -/

/-- The negative-integer branch (major type 1): magnitudes beyond
int64 range become bignums. -/
def negintTy (t : Ty) (aux : Nat) (s1 : List Nat) : Option (V × List Nat) :=
  if aux > 0x7fffffffffffffff then
    (setBignumTy t (-1 - (aux : Int))).map (fun v => (v, s1))
  else
    (setIntTy t (-1 - toInt64 aux)).map (fun v => (v, s1))

/-- The negative-integer branch with a dynamic target. -/
def negintGen (aux : Nat) (s1 : List Nat) : Option (GoValue × List Nat) :=
  if aux > 0x7fffffffffffffff then
    some (.vbignum (-1 - (aux : Int)), s1)
  else
    some (.vint (-1 - toInt64 aux), s1)

/-- dtStringSet: deposit decoded text; on a non-string target the
source panics. -/
def setTextTy (t : Ty) (st : List Nat) : Option V :=
  match t with
  | .tstr => some (.vstr st)
  | _ => none

/-- The semantic-tag branch (major type 6) with a typed target: only the
two bignum tags deposit; tags 4 and 5 are logged and skipped with the
wrapped item unread; any other tag builds a CBORTag, whose deposit into
a concretely typed target panics. -/
def tagTy (t : Ty) (cur : V) (aux : Nat) (s1 : List Nat) : Option (V × List Nat) :=
  match s1 with
  | [] => none
  | ic :: s2 =>
    if aux = tagBignum then
      match decodeBignum ic s2 with
      | none => none
      | some (bn, s3) => (setBignumTy t (bn : Int)).map (fun v => (v, s3))
    else if aux = tagNegBignum then
      match decodeBignum ic s2 with
      | none => none
      | some (bn, s3) => (setBignumTy t (-1 - (bn : Int))).map (fun v => (v, s3))
    else if aux = tagDecimal then
      some (cur, s2)
    else if aux = tagBigfloat then
      some (cur, s2)
    else
      none

/-- The simple/float branch (major type 7) with a typed target.  The
half-float and float32 sub-branches deposit converted doubles whose bit
patterns are not modelled (no claim depends on them); booleans deposited
onto non-bool targets panic in the source. -/
def cbor7Ty (t : Ty) (cur : V) (cborInfo aux : Nat) (s1 : List Nat) :
    Option (V × List Nat) :=
  if cborInfo = int16Follows then
    none
  else if cborInfo = int32Follows then
    none
  else if cborInfo = int64Follows then
    match t with
    | .tfloat64 => some (.vf64 aux, s1)   -- setFloat64(math.Float64frombits aux)
    | _ => none
  else if cborInfo = cborFalse then
    match t with
    | .tbool => some (.vbool false, s1)
    | _ => none
  else if cborInfo = cborTrue then
    match t with
    | .tbool => some (.vbool true, s1)
    | _ => none
  else if cborInfo = cborNull then
    some (zeroOfTy t, s1)   -- setNil writes the target zero value
  else
    some (cur, s1)   -- no branch matches: innerDecodeC returns nil, target untouched

/-- The simple/float branch (major type 7) with a dynamic target. -/
def cbor7Gen (cborInfo aux : Nat) (s1 : List Nat) : Option (GoValue × List Nat) :=
  if cborInfo = int16Follows then
    some (.vhalf (decodeHalf aux), s1)
  else if cborInfo = int32Follows then
    some (.vf32 (aux % 2 ^ 32), s1)   -- math.Float32frombits(uint32(aux))
  else if cborInfo = int64Follows then
    some (.vf64 aux, s1)
  else if cborInfo = cborFalse then
    some (.vbool false, s1)
  else if cborInfo = cborTrue then
    some (.vbool true, s1)
  else if cborInfo = cborNull then
    some (.vnull, s1)
  else
    some (.vnull, s1)   -- no branch matches: innerDecodeC returns nil, cell stays nil

/-- The current elements of a slice target (decodeArray sets irv := rv,
so decoding appends after them). -/
def arrElems : V → List V
  | .varr xs => xs
  | _ => []

/-- The current entries of a map target (a nil map is replaced by a
fresh empty one; decoded entries add to the existing map). -/
def mapElems : V → List (List Nat × V)
  | .vmap kvs => kvs
  | _ => []

/-- The current field values of a struct target. -/
def structElems (ftys : List (List Nat × Ty)) : V → List (List Nat × V)
  | .vstruct fs => fs
  | _ => zeroFields ftys

/-! ### The decoder proper (src/go/decoder.go)

`decodeGen` models Decode into a freshly allocated dynamic
(interface{}) cell; `decodeTy` models Decode into a concretely typed,
settable target whose current value is `cur`.  Both read the initial
byte themselves (reflectDecode) and then dispatch (innerDecodeC).  The
fuel argument only bounds the recursion depth of the Go code, which
recurses on a strictly shrinking input stream; every theorem quantifies
over all sufficiently large fuels. -/

mutual

/-- Decoder.Decode / reflectDecode into a dynamic cell: read the
initial byte, then dispatch. -/
def decodeGen (fuel : Nat) (s : List Nat) : Option (GoValue × List Nat) :=
  match fuel, s with
  | 0, _ => none
  | _ + 1, [] => none
  | f + 1, c :: s => innerGen f c s
termination_by structural fuel

/-- Decoder.innerDecodeC with a dynamic target. -/
def innerGen (fuel : Nat) (c : Nat) (s : List Nat) : Option (GoValue × List Nat) :=
  match fuel with
  | 0 => none
  | f + 1 =>
    match handleInfoBits (c &&& infoBits) s with
    | none => none
    | some (aux, s1) =>
      if c &&& typeMask = cborUint then
        some (.vuint aux, s1)
      else if c &&& typeMask = cborNegint then
        negintGen aux s1
      else if c &&& typeMask = cborBytes then
        match bytesBranch f (c &&& infoBits) aux s1 with
        | none => none
        | some (buf, s2) => some (.vbytes buf, s2)
      else if c &&& typeMask = cborText then
        match textBranch f (c &&& infoBits) aux s1 with
        | none => none
        | some (st, s2) => some (.vstr st, s2)
      else if c &&& typeMask = cborArray then
        arrayGen f (c &&& infoBits) aux s1
      else if c &&& typeMask = cborMap then
        mapGen f (c &&& infoBits) aux s1
      else if c &&& typeMask = cborTag then
        tagGen f aux s1
      else
        cbor7Gen (c &&& infoBits) aux s1
termination_by structural fuel

/-- The array branch of innerDecodeC with a dynamic target. -/
def arrayGen (fuel : Nat) (cborInfo aux : Nat) (s1 : List Nat) :
    Option (GoValue × List Nat) :=
  match fuel with
  | 0 => none
  | f + 1 =>
    if cborInfo = varFollows then
      match genArrVar f s1 with
      | none => none
      | some (xs, s2) => some (.varr xs, s2)
    else
      match genArrN f aux s1 with
      | none => none
      | some (xs, s2) => some (.varr xs, s2)
termination_by structural fuel

/-- The map branch of innerDecodeC with a dynamic target. -/
def mapGen (fuel : Nat) (cborInfo aux : Nat) (s1 : List Nat) :
    Option (GoValue × List Nat) :=
  match fuel with
  | 0 => none
  | f + 1 =>
    if cborInfo = varFollows then
      match genMapVar f [] s1 with
      | none => none
      | some (kvs, s2) => some (.vmap kvs, s2)
    else
      match genMapN f aux [] s1 with
      | none => none
      | some (kvs, s2) => some (.vmap kvs, s2)
termination_by structural fuel

/-- The semantic-tag branch of innerDecodeC with a dynamic target: the
TagDecoders registry is empty on a fresh decoder, so unknown tags wrap
the inner value as CBORTag{tag, wrapped}. -/
def tagGen (fuel : Nat) (aux : Nat) (s1 : List Nat) : Option (GoValue × List Nat) :=
  match fuel with
  | 0 => none
  | f + 1 =>
    match s1 with
    | [] => none
    | ic :: s2 =>
      if aux = tagBignum then
        match decodeBignum ic s2 with
        | none => none
        | some (bn, s3) => some (.vbignum (bn : Int), s3)
      else if aux = tagNegBignum then
        match decodeBignum ic s2 with
        | none => none
        | some (bn, s3) => some (.vbignum (-1 - (bn : Int)), s3)
      else if aux = tagDecimal then
        some (.vnull, s2)   -- logged as TODO; wrapped item unread, cell stays nil
      else if aux = tagBigfloat then
        some (.vnull, s2)   -- logged as TODO; wrapped item unread, cell stays nil
      else
        match innerGen f ic s2 with
        | none => none
        | some (w, s3) => some (.vtag aux w, s3)
termination_by structural fuel

/-- The byte-string branch of innerDecodeC: definite reads aux bytes,
indefinite concatenates chunks. -/
def bytesBranch (fuel : Nat) (cborInfo aux : Nat) (s : List Nat) :
    Option (List Nat × List Nat) :=
  match fuel with
  | 0 => none
  | f + 1 =>
    if cborInfo = varFollows then genBytesVar f s
    else readFull aux s
termination_by structural fuel

/-- The indefinite byte-string chunk loop: each chunk must itself be of
byte-string major type and is decoded by the same branch. -/
def genBytesVar (fuel : Nat) (s : List Nat) : Option (List Nat × List Nat) :=
  match fuel with
  | 0 => none
  | f + 1 =>
    match s with
    | [] => none
    | subc :: s1 =>
      if subc = 0xff then some ([], s1)
      else if subc &&& typeMask ≠ cborBytes then none
      else
        match handleInfoBits (subc &&& infoBits) s1 with
        | none => none
        | some (aux, s2) =>
          match bytesBranch f (subc &&& infoBits) aux s2 with
          | none => none
          | some (part, s3) =>
            match genBytesVar f s3 with
            | none => none
            | some (parts, s4) => some (part ++ parts, s4)
termination_by structural fuel

/-- Decoder.decodeText: definite reads aux bytes (the source ignores a
short read there, leaving the zero padding of the allocation);
indefinite concatenates chunks. -/
def textBranch (fuel : Nat) (cborInfo aux : Nat) (s : List Nat) :
    Option (List Nat × List Nat) :=
  match fuel with
  | 0 => none
  | f + 1 =>
    if cborInfo = varFollows then genTextVar f s
    else some (s.take aux ++ List.replicate (aux - s.length) 0, s.drop aux)
termination_by structural fuel

/-- The indefinite text chunk loop: each chunk is decoded into a fresh
dynamic cell and must turn out to be a string. -/
def genTextVar (fuel : Nat) (s : List Nat) : Option (List Nat × List Nat) :=
  match fuel with
  | 0 => none
  | f + 1 =>
    match s with
    | [] => none
    | subc :: s1 =>
      if subc = 0xff then some ([], s1)
      else
        match innerGen f subc s1 with
        | none => none
        | some (.vstr st, s2) =>
          match genTextVar f s2 with
          | none => none
          | some (parts, s3) => some (st ++ parts, s3)
        | some _ => none   -- "var text sub element not text"
termination_by structural fuel

/-- Definite-length array loop with a dynamic target: each element is
decoded into a fresh dynamic cell and appended. -/
def genArrN (fuel : Nat) (n : Nat) (s : List Nat) :
    Option (List GoValue × List Nat) :=
  match fuel with
  | 0 => none
  | f + 1 =>
    match n with
    | 0 => some ([], s)
    | n + 1 =>
      match decodeGen f s with
      | none => none
      | some (v, s1) =>
        match genArrN f n s1 with
        | none => none
        | some (vs, s2) => some (v :: vs, s2)
termination_by structural fuel

/-- Indefinite array loop with a dynamic target. -/
def genArrVar (fuel : Nat) (s : List Nat) : Option (List GoValue × List Nat) :=
  match fuel with
  | 0 => none
  | f + 1 =>
    match s with
    | [] => none
    | subc :: s1 =>
      if subc = 0xff then some ([], s1)
      else
        match innerGen f subc s1 with
        | none => none
        | some (v, s2) =>
          match genArrVar f s2 with
          | none => none
          | some (vs, s3) => some (v :: vs, s3)
termination_by structural fuel

/-- Definite-length map loop with a dynamic target: key and value are
each decoded into fresh dynamic cells, then inserted. -/
def genMapN (fuel : Nat) (n : Nat) (acc : List (GoValue × GoValue)) (s : List Nat) :
    Option (List (GoValue × GoValue) × List Nat) :=
  match fuel with
  | 0 => none
  | f + 1 =>
    match n with
    | 0 => some (acc, s)
    | n + 1 =>
      match decodeGen f s with
      | none => none
      | some (k, s1) =>
        match decodeGen f s1 with
        | none => none
        | some (v, s2) => genMapN f n (goMapSet acc (goKeyNorm k) v) s2
termination_by structural fuel

/-- Indefinite map loop with a dynamic target. -/
def genMapVar (fuel : Nat) (acc : List (GoValue × GoValue)) (s : List Nat) :
    Option (List (GoValue × GoValue) × List Nat) :=
  match fuel with
  | 0 => none
  | f + 1 =>
    match s with
    | [] => none
    | subc :: s1 =>
      if subc = 0xff then some (acc, s1)
      else
        match innerGen f subc s1 with
        | none => none
        | some (k, s2) =>
          match decodeGen f s2 with
          | none => none
          | some (v, s3) => genMapVar f (goMapSet acc (goKeyNorm k) v) s3
termination_by structural fuel

/-- Decode into a concretely typed settable target with current value
`cur`. -/
def decodeTy (t : Ty) (cur : V) (fuel : Nat) (s : List Nat) : Option (V × List Nat) :=
  match fuel, s with
  | 0, _ => none
  | _ + 1, [] => none
  | f + 1, c :: s => innerTy t cur f c s
termination_by structural fuel

/-- Decoder.innerDecodeC with a concretely typed target. -/
def innerTy (t : Ty) (cur : V) (fuel : Nat) (c : Nat) (s : List Nat) :
    Option (V × List Nat) :=
  match fuel with
  | 0 => none
  | f + 1 =>
    match handleInfoBits (c &&& infoBits) s with
    | none => none
    | some (aux, s1) =>
      if c &&& typeMask = cborUint then
        (setUintTy t aux).map (fun v => (v, s1))
      else if c &&& typeMask = cborNegint then
        negintTy t aux s1
      else if c &&& typeMask = cborBytes then
        match bytesBranch f (c &&& infoBits) aux s1 with
        | none => none
        | some (buf, s2) => (setBytesTy t buf).map (fun v => (v, s2))
      else if c &&& typeMask = cborText then
        match textBranch f (c &&& infoBits) aux s1 with
        | none => none
        | some (st, s2) => (setTextTy t st).map (fun v => (v, s2))
      else if c &&& typeMask = cborArray then
        arrayTy t cur f (c &&& infoBits) aux s1
      else if c &&& typeMask = cborMap then
        mapTy t cur f (c &&& infoBits) aux s1
      else if c &&& typeMask = cborTag then
        tagTy t cur aux s1
      else
        cbor7Ty t cur (c &&& infoBits) aux s1
termination_by structural fuel

/-- The array branch of innerDecodeC with a typed target: only slice
targets are in this universe; decoding appends after the slice current
elements (irv := rv). -/
def arrayTy (t : Ty) (cur : V) (fuel : Nat) (cborInfo aux : Nat) (s1 : List Nat) :
    Option (V × List Nat) :=
  match fuel with
  | 0 => none
  | f + 1 =>
    match t with
    | .tarr et =>
      if cborInfo = varFollows then
        match tyArrVar et f (arrElems cur) s1 with
        | none => none
        | some (xs, s2) => some (.varr xs, s2)
      else
        match tyArrN et f aux (arrElems cur) s1 with
        | none => none
        | some (xs, s2) => some (.varr xs, s2)
    | _ => none
termination_by structural fuel

/-- The map branch of innerDecodeC with a typed target: a string-keyed
map or a struct; other targets are an error. -/
def mapTy (t : Ty) (cur : V) (fuel : Nat) (cborInfo aux : Nat) (s1 : List Nat) :
    Option (V × List Nat) :=
  match fuel with
  | 0 => none
  | f + 1 =>
    match t with
    | .tmap vt =>
      if cborInfo = varFollows then
        match tyMapVar vt f (mapElems cur) s1 with
        | none => none
        | some (kvs, s2) => some (.vmap kvs, s2)
      else
        match tyMapN vt f aux (mapElems cur) s1 with
        | none => none
        | some (kvs, s2) => some (.vmap kvs, s2)
    | .tstruct ftys =>
      if cborInfo = varFollows then
        match tyStructVar ftys f (structElems ftys cur) s1 with
        | none => none
        | some (fs, s2) => some (.vstruct fs, s2)
      else
        match tyStructN ftys f aux (structElems ftys cur) s1 with
        | none => none
        | some (fs, s2) => some (.vstruct fs, s2)
    | _ => none
termination_by structural fuel

/-- Definite-length array loop with a slice target: elements are
decoded into fresh cells and appended to `acc`. -/
def tyArrN (et : Ty) (fuel : Nat) (n : Nat) (acc : List V) (s : List Nat) :
    Option (List V × List Nat) :=
  match fuel with
  | 0 => none
  | f + 1 =>
    match n with
    | 0 => some (acc, s)
    | n + 1 =>
      match decodeTy et (zeroOfTy et) f s with
      | none => none
      | some (v, s1) => tyArrN et f n (acc ++ [v]) s1
termination_by structural fuel

/-- Indefinite array loop with a slice target. -/
def tyArrVar (et : Ty) (fuel : Nat) (acc : List V) (s : List Nat) :
    Option (List V × List Nat) :=
  match fuel with
  | 0 => none
  | f + 1 =>
    match s with
    | [] => none
    | subc :: s1 =>
      if subc = 0xff then some (acc, s1)
      else
        match innerTy et (zeroOfTy et) f subc s1 with
        | none => none
        | some (v, s2) => tyArrVar et f (acc ++ [v]) s2
termination_by structural fuel

/-- Definite-length map loop with a string-keyed typed map target. -/
def tyMapN (vt : Ty) (fuel : Nat) (n : Nat) (acc : List (List Nat × V)) (s : List Nat) :
    Option (List (List Nat × V) × List Nat) :=
  match fuel with
  | 0 => none
  | f + 1 =>
    match n with
    | 0 => some (acc, s)
    | n + 1 =>
      match decodeTy .tstr (zeroOfTy .tstr) f s with
      | none => none
      | some (.vstr k, s1) =>
        match decodeTy vt (zeroOfTy vt) f s1 with
        | none => none
        | some (v, s2) => tyMapN vt f n (tyMapSet acc k v) s2
      | some _ => none   -- a string cell always holds a string
termination_by structural fuel

/-- Indefinite map loop with a string-keyed typed map target. -/
def tyMapVar (vt : Ty) (fuel : Nat) (acc : List (List Nat × V)) (s : List Nat) :
    Option (List (List Nat × V) × List Nat) :=
  match fuel with
  | 0 => none
  | f + 1 =>
    match s with
    | [] => none
    | subc :: s1 =>
      if subc = 0xff then some (acc, s1)
      else
        match innerTy .tstr (zeroOfTy .tstr) f subc s1 with
        | none => none
        | some (.vstr k, s2) =>
          match decodeTy vt (zeroOfTy vt) f s2 with
          | none => none
          | some (v, s3) => tyMapVar vt f (tyMapSet acc k v) s3
        | some _ => none
termination_by structural fuel

/-- Definite-length map loop with a struct target (setMapKV with the
structAssigner): a key that binds to no field has its value decoded
into a throwaway dynamic cell and discarded. -/
def tyStructN (ftys : List (List Nat × Ty)) (fuel : Nat) (n : Nat)
    (fvals : List (List Nat × V)) (s : List Nat) :
    Option (List (List Nat × V) × List Nat) :=
  match fuel with
  | 0 => none
  | f + 1 =>
    match n with
    | 0 => some (fvals, s)
    | n + 1 =>
      match decodeTy .tstr (zeroOfTy .tstr) f s with
      | none => none
      | some (.vstr k, s1) =>
        match structFieldFind ftys k with
        | none =>
          match decodeGen f s1 with
          | none => none
          | some (_, s2) => tyStructN ftys f n fvals s2
        | some (fn, ft) =>
          match decodeTy ft (getFieldD fvals fn (zeroOfTy ft)) f s1 with
          | none => none
          | some (v, s2) => tyStructN ftys f n (setField fvals fn v) s2
      | some _ => none
termination_by structural fuel

/-- Indefinite map loop with a struct target. -/
def tyStructVar (ftys : List (List Nat × Ty)) (fuel : Nat)
    (fvals : List (List Nat × V)) (s : List Nat) :
    Option (List (List Nat × V) × List Nat) :=
  match fuel with
  | 0 => none
  | f + 1 =>
    match s with
    | [] => none
    | subc :: s1 =>
      if subc = 0xff then some (fvals, s1)
      else
        match innerTy .tstr (zeroOfTy .tstr) f subc s1 with
        | none => none
        | some (.vstr k, s2) =>
          match structFieldFind ftys k with
          | none =>
            match decodeGen f s2 with
            | none => none
            | some (_, s3) => tyStructVar ftys f fvals s3
          | some (fn, ft) =>
            match decodeTy ft (getFieldD fvals fn (zeroOfTy ft)) f s2 with
            | none => none
            | some (v, s3) => tyStructVar ftys f (setField fvals fn v) s3
        | some _ => none
termination_by structural fuel

end

/-! ### Well-formed caller values, sizes, canonical forms -/

/-- Byte-valued list entries. -/
def bytesOk (l : List Nat) : Bool := l.all (fun b => decide (b < 256))

/-- The native widths the reflection dispatch covers (Go int/uint are
64-bit here). -/
def widthOk (w : Nat) : Bool := w == 8 || w == 16 || w == 32 || w == 64

/-- Pairwise non-equality of field names under case folding: without
this, ReflectValueForKey can bind a key to an earlier, case-insensitively
equal field. -/
def foldDistinct : List (List Nat) → Bool
  | [] => true
  | n :: ns => ns.all (fun m => !eqFold n m) && foldDistinct ns

/-- Key strings of a map or struct: byte-valued, length within a Go int. -/
def wfKeys (ks : List (List Nat)) : Bool :=
  ks.all (fun k => bytesOk k && decide (k.length < 2 ^ 63))

mutual

/-- `wfT t v` — the caller value `v` inhabits the concrete Go shape `t`
and satisfies the representation invariants of that shape: integers fit
their width, float bit patterns fit 64 bits, byte/text contents are
bytes, lengths fit a Go int, map keys are distinct, struct field names
are pairwise distinct under case folding, and `[]byte` is `tbytes`
(never `tarr (tuint 8)`, which the encoder would emit as a byte string). -/
def wfT : Ty → V → Bool
  | .tuint w, .vuint w2 u => w == w2 && widthOk w && decide (u < 2 ^ w)
  | .tint w, .vint w2 i =>
      w == w2 && widthOk w && decide (-(2 ^ (w - 1) : Int) ≤ i) && decide (i < 2 ^ (w - 1))
  | .tfloat64, .vf64 bits => decide (bits < 2 ^ 64)
  | .tstr, .vstr s => bytesOk s && decide (s.length < 2 ^ 63)
  | .tbytes, .vbytes b => bytesOk b && decide (b.length < 2 ^ 63)
  | .tbool, .vbool _ => true
  | .tarr et, .varr xs =>
      (match et with | .tuint 8 => false | _ => true) &&
      decide (xs.length < 2 ^ 63) && wfList et xs
  | .tmap vt, .vmap kvs =>
      decide (kvs.length < 2 ^ 63) && decide ((kvs.map Prod.fst).Nodup) &&
      wfKeys (kvs.map Prod.fst) && wfPairs vt kvs
  | .tstruct ftys, .vstruct fs =>
      decide (fs.length < 2 ^ 63) && foldDistinct (fs.map Prod.fst) &&
      wfKeys (fs.map Prod.fst) && wfFields ftys fs
  | _, _ => false

def wfList : Ty → List V → Bool
  | _, [] => true
  | et, v :: vs => wfT et v && wfList et vs

def wfPairs : Ty → List (List Nat × V) → Bool
  | _, [] => true
  | vt, (_, v) :: kvs => wfT vt v && wfPairs vt kvs

def wfFields : List (List Nat × Ty) → List (List Nat × V) → Bool
  | [], [] => true
  | (n1, ft) :: ftys, (n2, fv) :: fs => n1 == n2 && wfT ft fv && wfFields ftys fs
  | _, _ => false

end

mutual

/-- A fuel bound for decoding `encodeV v`. -/
def sizeV : V → Nat
  | .varr xs => 3 + sizeList xs
  | .vmap kvs => 3 + sizePairs kvs
  | .vstruct fs => 3 + sizePairs fs
  | _ => 3

def sizeList : List V → Nat
  | [] => 1
  | v :: vs => 1 + sizeV v + sizeList vs

def sizePairs : List (List Nat × V) → Nat
  | [] => 1
  | (_, v) :: kvs => 4 + sizeV v + sizePairs kvs

end

/-- The non-strict order on V-level map entries induced by the key
sorter on their encoded keys. -/
def entryLe (a b : List Nat × V) : Prop :=
  cborKeySorterLess (writeText b.1) (writeText a.1) = false

instance : DecidableRel entryLe := fun a b => by
  unfold entryLe; infer_instance

/-- Map entries in the order the encoder emits them. -/
def sortEntries (kvs : List (List Nat × V)) : List (List Nat × V) :=
  kvs.insertionSort entryLe

mutual

/-- The canonical image of a caller value under an encode/decode round
trip: map entries are reordered into emission order, everything else is
kept; values are canonicalised recursively. -/
def canonV : V → V
  | .varr xs => .varr (canonList xs)
  | .vmap kvs => .vmap (sortEntries (canonPairs kvs))
  | .vstruct fs => .vstruct (canonPairs fs)
  | v => v

def canonList : List V → List V
  | [] => []
  | v :: vs => canonV v :: canonList vs

def canonPairs : List (List Nat × V) → List (List Nat × V)
  | [] => []
  | (k, v) :: kvs => (k, canonV v) :: canonPairs kvs

end

mutual

/-- Element-wise equality of caller values, with map contents compared
as entry sets (Go maps are unordered: a map value is equal to any
reordering of its entries) and floats compared by bit pattern. -/
inductive VEq : V → V → Prop where
  | vuint (w u : Nat) : VEq (.vuint w u) (.vuint w u)
  | vint (w : Nat) (i : Int) : VEq (.vint w i) (.vint w i)
  | vf64 (b : Nat) : VEq (.vf64 b) (.vf64 b)
  | vstr (s : List Nat) : VEq (.vstr s) (.vstr s)
  | vbytes (b : List Nat) : VEq (.vbytes b) (.vbytes b)
  | vbool (b : Bool) : VEq (.vbool b) (.vbool b)
  | varr {xs ys : List V} : VEqList xs ys → VEq (.varr xs) (.varr ys)
  | vstruct {fs gs : List (List Nat × V)} :
      VEqPairs fs gs → VEq (.vstruct fs) (.vstruct gs)
  | vmap {kvs lvs mid : List (List Nat × V)} :
      kvs.Perm mid → VEqPairs mid lvs → VEq (.vmap kvs) (.vmap lvs)

/-- Pointwise element-wise equality of sequences. -/
inductive VEqList : List V → List V → Prop where
  | nil : VEqList [] []
  | cons {a b : V} {as bs : List V} :
      VEq a b → VEqList as bs → VEqList (a :: as) (b :: bs)

/-- Pointwise equality of keyed entry lists: same keys in the same
order, element-wise equal values. -/
inductive VEqPairs : List (List Nat × V) → List (List Nat × V) → Prop where
  | nil : VEqPairs [] []
  | cons {k : List Nat} {v w : V} {r s : List (List Nat × V)} :
      VEq v w → VEqPairs r s → VEqPairs ((k, v) :: r) ((k, w) :: s)

end

/-- The half-float value as the specification words it, for comparison
with the decoder's decodeHalf: exponent and mantissa fields, subnormal /
normal / infinity / NaN cases, sign applied from bit 15. -/
def halfSpec (aux : Nat) : HalfVal :=
  let e := (aux >>> 10) &&& 0x1F
  let m := aux &&& 0x3FF
  let val : HalfVal :=
    if e = 0 then .fin ((m : ℚ) * 2 ^ (-24 : ℤ))
    else if e ≠ 31 then .fin (((m : ℚ) + 1024) * 2 ^ ((e : ℤ) - 25))
    else if m = 0 then .inf
    else .nan
  if aux &&& 0x8000 ≠ 0 then negHalf val else val

/-! ### Arithmetic facts about the wire primitives -/

theorem and_255 (x : Nat) : x &&& 0x0ff = x % 256 := by
  have h := Nat.and_pow_two_sub_one_eq_mod x 8
  norm_num at h
  exact h

theorem shiftRight_and_255 (x k : Nat) : (x >>> k) &&& 0x0ff = x / 2 ^ k % 256 := by
  rw [Nat.shiftRight_eq_div_pow]
  have h := Nat.and_pow_two_sub_one_eq_mod (x / 2 ^ k) 8
  norm_num at h
  exact h

theorem byte_lt (x k : Nat) : (x >>> k) &&& 0x0ff < 256 := by
  rw [shiftRight_and_255]; omega

theorem or_eq_add_of_lt (k a b : Nat) (ha : 2 ^ k ∣ a) (hb : b < 2 ^ k) :
    a ||| b = a + b := by
  obtain ⟨c, rfl⟩ := ha
  exact (Nat.mul_add_lt_is_or hb c).symm

theorem assemble2b (b0 b1 : Nat) (h1 : b1 < 256) :
    (b0 <<< 8) ||| b1 = b0 * 256 + b1 := by
  rw [Nat.shiftLeft_eq]
  rw [or_eq_add_of_lt 8 (b0 * 2 ^ 8) b1 ⟨b0, by ring⟩ (by omega)]

theorem assemble4b (b0 b1 b2 b3 : Nat) (h1 : b1 < 256) (h2 : b2 < 256) (h3 : b3 < 256) :
    (b0 <<< 24) ||| (b1 <<< 16) ||| (b2 <<< 8) ||| b3
      = ((b0 * 256 + b1) * 256 + b2) * 256 + b3 := by
  rw [Nat.shiftLeft_eq, Nat.shiftLeft_eq, Nat.shiftLeft_eq]
  rw [or_eq_add_of_lt 24 (b0 * 2 ^ 24) (b1 * 2 ^ 16) ⟨b0, by ring⟩ (by omega)]
  rw [or_eq_add_of_lt 16 (b0 * 2 ^ 24 + b1 * 2 ^ 16) (b2 * 2 ^ 8)
        ⟨b0 * 2 ^ 8 + b1, by ring⟩ (by omega)]
  rw [or_eq_add_of_lt 8 (b0 * 2 ^ 24 + b1 * 2 ^ 16 + b2 * 2 ^ 8) b3
        ⟨b0 * 2 ^ 16 + b1 * 2 ^ 8 + b2, by ring⟩ (by omega)]
  ring

theorem assemble8b (b0 b1 b2 b3 b4 b5 b6 b7 : Nat)
    (h1 : b1 < 256) (h2 : b2 < 256) (h3 : b3 < 256) (h4 : b4 < 256)
    (h5 : b5 < 256) (h6 : b6 < 256) (h7 : b7 < 256) :
    (b0 <<< 56) ||| (b1 <<< 48) ||| (b2 <<< 40) ||| (b3 <<< 32) |||
      (b4 <<< 24) ||| (b5 <<< 16) ||| (b6 <<< 8) ||| b7
      = ((((((b0 * 256 + b1) * 256 + b2) * 256 + b3) * 256 + b4) * 256 + b5) * 256 + b6)
          * 256 + b7 := by
  rw [Nat.shiftLeft_eq, Nat.shiftLeft_eq, Nat.shiftLeft_eq, Nat.shiftLeft_eq,
      Nat.shiftLeft_eq, Nat.shiftLeft_eq, Nat.shiftLeft_eq]
  rw [or_eq_add_of_lt 56 (b0 * 2 ^ 56) (b1 * 2 ^ 48) ⟨b0, by ring⟩ (by omega)]
  rw [or_eq_add_of_lt 48 (b0 * 2 ^ 56 + b1 * 2 ^ 48) (b2 * 2 ^ 40)
        ⟨b0 * 2 ^ 8 + b1, by ring⟩ (by omega)]
  rw [or_eq_add_of_lt 40 (b0 * 2 ^ 56 + b1 * 2 ^ 48 + b2 * 2 ^ 40) (b3 * 2 ^ 32)
        ⟨b0 * 2 ^ 16 + b1 * 2 ^ 8 + b2, by ring⟩ (by omega)]
  rw [or_eq_add_of_lt 32
        (b0 * 2 ^ 56 + b1 * 2 ^ 48 + b2 * 2 ^ 40 + b3 * 2 ^ 32) (b4 * 2 ^ 24)
        ⟨b0 * 2 ^ 24 + b1 * 2 ^ 16 + b2 * 2 ^ 8 + b3, by ring⟩ (by omega)]
  rw [or_eq_add_of_lt 24
        (b0 * 2 ^ 56 + b1 * 2 ^ 48 + b2 * 2 ^ 40 + b3 * 2 ^ 32 + b4 * 2 ^ 24) (b5 * 2 ^ 16)
        ⟨b0 * 2 ^ 32 + b1 * 2 ^ 24 + b2 * 2 ^ 16 + b3 * 2 ^ 8 + b4, by ring⟩ (by omega)]
  rw [or_eq_add_of_lt 16
        (b0 * 2 ^ 56 + b1 * 2 ^ 48 + b2 * 2 ^ 40 + b3 * 2 ^ 32 + b4 * 2 ^ 24 + b5 * 2 ^ 16)
        (b6 * 2 ^ 8)
        ⟨b0 * 2 ^ 40 + b1 * 2 ^ 32 + b2 * 2 ^ 24 + b3 * 2 ^ 16 + b4 * 2 ^ 8 + b5,
          by ring⟩ (by omega)]
  rw [or_eq_add_of_lt 8
        (b0 * 2 ^ 56 + b1 * 2 ^ 48 + b2 * 2 ^ 40 + b3 * 2 ^ 32 + b4 * 2 ^ 24 + b5 * 2 ^ 16 +
          b6 * 2 ^ 8) b7
        ⟨b0 * 2 ^ 48 + b1 * 2 ^ 40 + b2 * 2 ^ 32 + b3 * 2 ^ 24 + b4 * 2 ^ 16 + b5 * 2 ^ 8 + b6,
          by ring⟩ (by omega)]
  ring

/-! ### handleInfoBits reads back what tagAuxOut / tagAux64 wrote -/

theorem handleInfoBits_le23 (i : Nat) (h : i ≤ 23) (s : List Nat) :
    handleInfoBits i s = some (i, s) := by
  unfold handleInfoBits
  rw [if_pos h]

theorem handleInfoBits_24 (b0 : Nat) (r : List Nat) :
    handleInfoBits 24 (b0 :: r) = some (b0, r) := rfl

theorem handleInfoBits_25 (b0 b1 : Nat) (r : List Nat) :
    handleInfoBits 25 (b0 :: b1 :: r) = some ((b0 <<< 8) ||| b1, r) := rfl

theorem handleInfoBits_26 (b0 b1 b2 b3 : Nat) (r : List Nat) :
    handleInfoBits 26 (b0 :: b1 :: b2 :: b3 :: r)
      = some ((b0 <<< 24) ||| (b1 <<< 16) ||| (b2 <<< 8) ||| b3, r) := rfl

theorem handleInfoBits_27 (b0 b1 b2 b3 b4 b5 b6 b7 : Nat) (r : List Nat) :
    handleInfoBits 27 (b0 :: b1 :: b2 :: b3 :: b4 :: b5 :: b6 :: b7 :: r)
      = some ((b0 <<< 56) ||| (b1 <<< 48) ||| (b2 <<< 40) ||| (b3 <<< 32) |||
              (b4 <<< 24) ||| (b5 <<< 16) ||| (b6 <<< 8) ||| b7, r) := rfl

/-- Reading back an 8-byte header+aux block emitted by tagAux64. -/
theorem decode_tagAux64 (tag x : Nat)
    (hmask : (tag ||| int64Follows) &&& typeMask = tag ∧
             (tag ||| int64Follows) &&& infoBits = int64Follows)
    (hx : x < 2 ^ 64) (r : List Nat) :
    ∃ c rest, tagAux64 tag x ++ r = c :: rest ∧ c &&& typeMask = tag ∧
      c &&& infoBits = int64Follows ∧
      handleInfoBits (c &&& infoBits) rest = some (x, r) := by
  refine ⟨tag ||| int64Follows, _, rfl, hmask.1, hmask.2, ?_⟩
  rw [hmask.2]
  show handleInfoBits 27 _ = _
  simp only [List.append_eq, List.cons_append, List.nil_append]
  rw [handleInfoBits_27]
  rw [assemble8b _ _ _ _ _ _ _ _ (byte_lt x 48) (byte_lt x 40) (byte_lt x 32)
        (byte_lt x 24) (byte_lt x 16) (byte_lt x 8) (by rw [and_255]; omega)]
  rw [shiftRight_and_255, shiftRight_and_255, shiftRight_and_255, shiftRight_and_255,
      shiftRight_and_255, shiftRight_and_255, shiftRight_and_255, and_255]
  rw [show (x / 2 ^ 56 % 256 * 256 + x / 2 ^ 48 % 256) * 256 = x / 2 ^ 56 % 256 * 2 ^ 16 +
        x / 2 ^ 48 % 256 * 2 ^ 8 from by ring]
  norm_num
  omega

/-- Reading back a header+aux block emitted by tagAuxOut: the decoder
recovers exactly the encoded quantity and leaves the trailing stream
untouched. -/
theorem decode_tagAuxOut (tag x : Nat)
    (hmask : ∀ i, i ≤ 27 → (tag ||| i) &&& typeMask = tag ∧ (tag ||| i) &&& infoBits = i)
    (hx : x < 2 ^ 64) (r : List Nat) :
    ∃ c rest, tagAuxOut tag x ++ r = c :: rest ∧ c &&& typeMask = tag ∧
      c &&& infoBits ≤ 27 ∧
      handleInfoBits (c &&& infoBits) rest = some (x, r) := by
  unfold tagAuxOut
  split_ifs with h1 h2 h3 h4
  · -- tiny literal
    obtain ⟨hm1, hm2⟩ := hmask x (by omega)
    refine ⟨tag ||| x, r, rfl, hm1, by omega, ?_⟩
    rw [hm2, handleInfoBits_le23 x h1]
  · -- one follow-on byte
    obtain ⟨hm1, hm2⟩ := hmask int8Follows (by decide)
    refine ⟨tag ||| int8Follows, _, rfl, hm1, by rw [hm2]; decide, ?_⟩
    rw [hm2]
    show handleInfoBits 24 _ = _
    simp only [List.append_eq, List.cons_append, List.nil_append]
    rw [handleInfoBits_24, and_255]
    congr 2
    omega
  · -- two follow-on bytes
    obtain ⟨hm1, hm2⟩ := hmask int16Follows (by decide)
    refine ⟨tag ||| int16Follows, _, rfl, hm1, by rw [hm2]; decide, ?_⟩
    rw [hm2]
    show handleInfoBits 25 _ = _
    simp only [List.append_eq, List.cons_append, List.nil_append]
    rw [handleInfoBits_25, assemble2b _ _ (by rw [and_255]; omega),
        shiftRight_and_255, and_255]
    congr 2
    omega
  · -- four follow-on bytes
    obtain ⟨hm1, hm2⟩ := hmask int32Follows (by decide)
    refine ⟨tag ||| int32Follows, _, rfl, hm1, by rw [hm2]; decide, ?_⟩
    rw [hm2]
    show handleInfoBits 26 _ = _
    simp only [List.append_eq, List.cons_append, List.nil_append]
    rw [handleInfoBits_26,
        assemble4b _ _ _ _ (byte_lt x 16) (byte_lt x 8) (by rw [and_255]; omega),
        shiftRight_and_255, shiftRight_and_255, shiftRight_and_255, and_255]
    congr 2
    omega
  · -- eight follow-on bytes
    have h := decode_tagAux64 tag x (hmask int64Follows (by decide)) hx r
    obtain ⟨c, rest, he, hc1, hc2, hread⟩ := h
    exact ⟨c, rest, he, hc1, by rw [hc2]; decide, hread⟩


/-! ### Dispatch lemmas: innerDecodeC routes each major type to its
branch -/

theorem mask_uint : ∀ i, i ≤ 27 →
    (cborUint ||| i) &&& typeMask = cborUint ∧ (cborUint ||| i) &&& infoBits = i := by decide

theorem mask_negint : ∀ i, i ≤ 27 →
    (cborNegint ||| i) &&& typeMask = cborNegint ∧ (cborNegint ||| i) &&& infoBits = i := by
  decide

theorem mask_bytes : ∀ i, i ≤ 27 →
    (cborBytes ||| i) &&& typeMask = cborBytes ∧ (cborBytes ||| i) &&& infoBits = i := by decide

theorem mask_text : ∀ i, i ≤ 27 →
    (cborText ||| i) &&& typeMask = cborText ∧ (cborText ||| i) &&& infoBits = i := by decide

theorem mask_array : ∀ i, i ≤ 27 →
    (cborArray ||| i) &&& typeMask = cborArray ∧ (cborArray ||| i) &&& infoBits = i := by decide

theorem mask_map : ∀ i, i ≤ 27 →
    (cborMap ||| i) &&& typeMask = cborMap ∧ (cborMap ||| i) &&& infoBits = i := by decide

theorem mask_7 : ∀ i, i ≤ 27 →
    (cbor7 ||| i) &&& typeMask = cbor7 ∧ (cbor7 ||| i) &&& infoBits = i := by decide

theorem decodeTy_cons (t : Ty) (cur : V) (f c : Nat) (s : List Nat) :
    decodeTy t cur (f + 1) (c :: s) = innerTy t cur f c s := rfl

theorem decodeGen_cons (f c : Nat) (s : List Nat) :
    decodeGen (f + 1) (c :: s) = innerGen f c s := rfl

theorem innerTy_uint (t : Ty) (cur : V) (fuel c : Nat) (s : List Nat) (aux : Nat) (r : List Nat)
    (hc : c &&& typeMask = cborUint)
    (hread : handleInfoBits (c &&& infoBits) s = some (aux, r)) :
    innerTy t cur (fuel + 1) c s = (setUintTy t aux).map (fun v => (v, r)) := by
  rw [innerTy]
  rw [hread, hc]
  dsimp only
  rw [if_pos rfl]

theorem innerTy_negint (t : Ty) (cur : V) (fuel c : Nat) (s : List Nat) (aux : Nat)
    (r : List Nat)
    (hc : c &&& typeMask = cborNegint)
    (hread : handleInfoBits (c &&& infoBits) s = some (aux, r)) :
    innerTy t cur (fuel + 1) c s = negintTy t aux r := by
  rw [innerTy]
  rw [hread, hc]
  dsimp only
  rw [if_neg (by decide), if_pos rfl]

theorem innerTy_bytes (t : Ty) (cur : V) (fuel c : Nat) (s : List Nat) (aux : Nat)
    (r : List Nat)
    (hc : c &&& typeMask = cborBytes)
    (hread : handleInfoBits (c &&& infoBits) s = some (aux, r)) :
    innerTy t cur (fuel + 1) c s =
      (match bytesBranch fuel (c &&& infoBits) aux r with
       | none => none
       | some (buf, s2) => (setBytesTy t buf).map (fun v => (v, s2))) := by
  rw [innerTy]
  rw [hread, hc]
  dsimp only
  rw [if_neg (by decide), if_neg (by decide), if_pos rfl]

theorem innerTy_text (t : Ty) (cur : V) (fuel c : Nat) (s : List Nat) (aux : Nat)
    (r : List Nat)
    (hc : c &&& typeMask = cborText)
    (hread : handleInfoBits (c &&& infoBits) s = some (aux, r)) :
    innerTy t cur (fuel + 1) c s =
      (match textBranch fuel (c &&& infoBits) aux r with
       | none => none
       | some (st, s2) => (setTextTy t st).map (fun v => (v, s2))) := by
  rw [innerTy]
  rw [hread, hc]
  dsimp only
  rw [if_neg (by decide), if_neg (by decide), if_neg (by decide), if_pos rfl]

theorem innerTy_array (t : Ty) (cur : V) (fuel c : Nat) (s : List Nat) (aux : Nat)
    (r : List Nat)
    (hc : c &&& typeMask = cborArray)
    (hread : handleInfoBits (c &&& infoBits) s = some (aux, r)) :
    innerTy t cur (fuel + 1) c s = arrayTy t cur fuel (c &&& infoBits) aux r := by
  rw [innerTy]
  rw [hread, hc]
  dsimp only
  rw [if_neg (by decide), if_neg (by decide), if_neg (by decide), if_neg (by decide),
      if_pos rfl]

theorem innerTy_map (t : Ty) (cur : V) (fuel c : Nat) (s : List Nat) (aux : Nat)
    (r : List Nat)
    (hc : c &&& typeMask = cborMap)
    (hread : handleInfoBits (c &&& infoBits) s = some (aux, r)) :
    innerTy t cur (fuel + 1) c s = mapTy t cur fuel (c &&& infoBits) aux r := by
  rw [innerTy]
  rw [hread, hc]
  dsimp only
  rw [if_neg (by decide), if_neg (by decide), if_neg (by decide), if_neg (by decide),
      if_neg (by decide), if_pos rfl]

theorem innerTy_tag (t : Ty) (cur : V) (fuel c : Nat) (s : List Nat) (aux : Nat)
    (r : List Nat)
    (hc : c &&& typeMask = cborTag)
    (hread : handleInfoBits (c &&& infoBits) s = some (aux, r)) :
    innerTy t cur (fuel + 1) c s = tagTy t cur aux r := by
  rw [innerTy]
  rw [hread, hc]
  dsimp only
  rw [if_neg (by decide), if_neg (by decide), if_neg (by decide), if_neg (by decide),
      if_neg (by decide), if_neg (by decide), if_pos rfl]

theorem innerTy_7 (t : Ty) (cur : V) (fuel c : Nat) (s : List Nat) (aux : Nat)
    (r : List Nat)
    (hc : c &&& typeMask = cbor7)
    (hread : handleInfoBits (c &&& infoBits) s = some (aux, r)) :
    innerTy t cur (fuel + 1) c s = cbor7Ty t cur (c &&& infoBits) aux r := by
  rw [innerTy]
  rw [hread, hc]
  dsimp only
  rw [if_neg (by decide), if_neg (by decide), if_neg (by decide), if_neg (by decide),
      if_neg (by decide), if_neg (by decide), if_neg (by decide)]

theorem innerGen_uint (fuel c : Nat) (s : List Nat) (aux : Nat) (r : List Nat)
    (hc : c &&& typeMask = cborUint)
    (hread : handleInfoBits (c &&& infoBits) s = some (aux, r)) :
    innerGen (fuel + 1) c s = some (.vuint aux, r) := by
  rw [innerGen]
  rw [hread, hc]
  dsimp only
  rw [if_pos rfl]

theorem innerGen_negint (fuel c : Nat) (s : List Nat) (aux : Nat) (r : List Nat)
    (hc : c &&& typeMask = cborNegint)
    (hread : handleInfoBits (c &&& infoBits) s = some (aux, r)) :
    innerGen (fuel + 1) c s = negintGen aux r := by
  rw [innerGen]
  rw [hread, hc]
  dsimp only
  rw [if_neg (by decide), if_pos rfl]

theorem innerGen_bytes (fuel c : Nat) (s : List Nat) (aux : Nat) (r : List Nat)
    (hc : c &&& typeMask = cborBytes)
    (hread : handleInfoBits (c &&& infoBits) s = some (aux, r)) :
    innerGen (fuel + 1) c s =
      (match bytesBranch fuel (c &&& infoBits) aux r with
       | none => none
       | some (buf, s2) => some (.vbytes buf, s2)) := by
  rw [innerGen]
  rw [hread, hc]
  dsimp only
  rw [if_neg (by decide), if_neg (by decide), if_pos rfl]

theorem innerGen_text (fuel c : Nat) (s : List Nat) (aux : Nat) (r : List Nat)
    (hc : c &&& typeMask = cborText)
    (hread : handleInfoBits (c &&& infoBits) s = some (aux, r)) :
    innerGen (fuel + 1) c s =
      (match textBranch fuel (c &&& infoBits) aux r with
       | none => none
       | some (st, s2) => some (.vstr st, s2)) := by
  rw [innerGen]
  rw [hread, hc]
  dsimp only
  rw [if_neg (by decide), if_neg (by decide), if_neg (by decide), if_pos rfl]

theorem innerGen_array (fuel c : Nat) (s : List Nat) (aux : Nat) (r : List Nat)
    (hc : c &&& typeMask = cborArray)
    (hread : handleInfoBits (c &&& infoBits) s = some (aux, r)) :
    innerGen (fuel + 1) c s = arrayGen fuel (c &&& infoBits) aux r := by
  rw [innerGen]
  rw [hread, hc]
  dsimp only
  rw [if_neg (by decide), if_neg (by decide), if_neg (by decide), if_neg (by decide),
      if_pos rfl]

theorem innerGen_map (fuel c : Nat) (s : List Nat) (aux : Nat) (r : List Nat)
    (hc : c &&& typeMask = cborMap)
    (hread : handleInfoBits (c &&& infoBits) s = some (aux, r)) :
    innerGen (fuel + 1) c s = mapGen fuel (c &&& infoBits) aux r := by
  rw [innerGen]
  rw [hread, hc]
  dsimp only
  rw [if_neg (by decide), if_neg (by decide), if_neg (by decide), if_neg (by decide),
      if_neg (by decide), if_pos rfl]

theorem innerGen_tag (fuel c : Nat) (s : List Nat) (aux : Nat) (r : List Nat)
    (hc : c &&& typeMask = cborTag)
    (hread : handleInfoBits (c &&& infoBits) s = some (aux, r)) :
    innerGen (fuel + 1) c s = tagGen fuel aux r := by
  rw [innerGen]
  rw [hread, hc]
  dsimp only
  rw [if_neg (by decide), if_neg (by decide), if_neg (by decide), if_neg (by decide),
      if_neg (by decide), if_neg (by decide), if_pos rfl]

theorem innerGen_7 (fuel c : Nat) (s : List Nat) (aux : Nat) (r : List Nat)
    (hc : c &&& typeMask = cbor7)
    (hread : handleInfoBits (c &&& infoBits) s = some (aux, r)) :
    innerGen (fuel + 1) c s = cbor7Gen (c &&& infoBits) aux r := by
  rw [innerGen]
  rw [hread, hc]
  dsimp only
  rw [if_neg (by decide), if_neg (by decide), if_neg (by decide), if_neg (by decide),
      if_neg (by decide), if_neg (by decide), if_neg (by decide)]

end Cbor

namespace Cbor

/-! ### Round-trip lemmas for the scalar shapes -/

theorem widthOk_le (w : Nat) (hw : widthOk w = true) : w ≤ 64 := by
  simp only [widthOk, Bool.or_eq_true, beq_iff_eq] at hw
  rcases hw with (((rfl | rfl) | rfl) | rfl) <;> omega

theorem decode_enc_uint (w u : Nat) (cur : V) (fuel : Nat) (r : List Nat)
    (hw : widthOk w = true) (hu : u < 2 ^ w) (hf : 2 ≤ fuel) :
    decodeTy (.tuint w) cur fuel (tagAuxOut cborUint u ++ r) = some (.vuint w u, r) := by
  have hu64 : u < 2 ^ 64 :=
    lt_of_lt_of_le hu (Nat.pow_le_pow_right (by omega) (widthOk_le w hw))
  obtain ⟨c, rest, he, hc1, _, hread⟩ := decode_tagAuxOut cborUint u mask_uint hu64 r
  obtain ⟨f, rfl⟩ : ∃ f, fuel = f + 2 := ⟨fuel - 2, by omega⟩
  rw [he, decodeTy_cons, innerTy_uint _ _ _ _ _ _ _ hc1 hread]
  simp only [setUintTy, overflowUint]
  rw [if_neg (by simp only [decide_eq_true_eq]; omega)]
  rfl

theorem decode_enc_int (w : Nat) (i : Int) (cur : V) (fuel : Nat) (r : List Nat)
    (hw : widthOk w = true) (hlo : -(2 ^ (w - 1) : Int) ≤ i) (hhi : i < 2 ^ (w - 1))
    (hf : 2 ≤ fuel) :
    decodeTy (.tint w) cur fuel (writeInt i ++ r) = some (.vint w i, r) := by
  have hw64 : w ≤ 64 := widthOk_le w hw
  have hpow : (2 ^ (w - 1) : Int) ≤ 2 ^ 63 := by
    have : (2 : Int) ^ (w - 1) ≤ 2 ^ 63 := by
      apply pow_le_pow_right₀ (by omega)
      omega
    exact this
  obtain ⟨f, rfl⟩ : ∃ f, fuel = f + 2 := ⟨fuel - 2, by omega⟩
  unfold writeInt
  split_ifs with hneg
  · -- negative: major type 1 with aux = -1 - i
    have haux : ((-1 - i).toNat : Int) = -1 - i := by
      rw [Int.toNat_of_nonneg]; omega
    have haux64 : (-1 - i).toNat < 2 ^ 64 := by omega
    obtain ⟨c, rest, he, hc1, _, hread⟩ :=
      decode_tagAuxOut cborNegint (-1 - i).toNat mask_negint haux64 r
    rw [he, decodeTy_cons, innerTy_negint _ _ _ _ _ _ _ hc1 hread]
    unfold negintTy
    rw [if_neg (by omega)]
    have htoi : toInt64 (-1 - i).toNat = ((-1 - i).toNat : Int) := by
      unfold toInt64
      rw [if_pos (by omega)]
    rw [htoi, haux]
    have hi2 : (-1 : Int) - (-1 - i) = i := by ring
    rw [hi2]
    simp only [setIntTy, overflowInt]
    rw [if_neg (by simp only [Bool.or_eq_true, decide_eq_true_eq]; omega)]
    rfl
  · -- non-negative: major type 0 with aux = i
    have haux : (i.toNat : Int) = i := by
      rw [Int.toNat_of_nonneg]; omega
    have haux64 : i.toNat < 2 ^ 64 := by omega
    obtain ⟨c, rest, he, hc1, _, hread⟩ :=
      decode_tagAuxOut cborUint i.toNat mask_uint haux64 r
    rw [he, decodeTy_cons, innerTy_uint _ _ _ _ _ _ _ hc1 hread]
    have htoi : toInt64 i.toNat = i := by
      unfold toInt64
      rw [if_pos (by omega), haux]
    simp only [setUintTy]
    rw [if_neg]
    · rw [htoi]
      rfl
    · simp only [overflowInt, htoi, Bool.or_eq_true, decide_eq_true_eq]
      push_neg
      refine ⟨by omega, by omega, by omega⟩

theorem decode_enc_f64 (bits : Nat) (cur : V) (fuel : Nat) (r : List Nat)
    (hb : bits < 2 ^ 64) (hf : 2 ≤ fuel) :
    decodeTy .tfloat64 cur fuel (writeFloat bits ++ r) = some (.vf64 bits, r) := by
  obtain ⟨c, rest, he, hc1, hc2, hread⟩ :=
    decode_tagAux64 cbor7 bits (mask_7 int64Follows (by decide)) hb r
  obtain ⟨f, rfl⟩ : ∃ f, fuel = f + 2 := ⟨fuel - 2, by omega⟩
  rw [show writeFloat bits = tagAux64 cbor7 bits from rfl] 
  rw [he, decodeTy_cons, innerTy_7 _ _ _ _ _ _ _ hc1 hread, hc2]
  rfl

theorem decode_enc_bool (b : Bool) (cur : V) (fuel : Nat) (r : List Nat) (hf : 2 ≤ fuel) :
    decodeTy .tbool cur fuel (writeBool b ++ r) = some (.vbool b, r) := by
  obtain ⟨f, rfl⟩ : ∃ f, fuel = f + 2 := ⟨fuel - 2, by omega⟩
  cases b
  · rw [show writeBool false ++ r = 0xf4 :: r from rfl, decodeTy_cons,
        innerTy_7 _ _ _ _ _ _ r (by decide) (by rfl)]
    rfl
  · rw [show writeBool true ++ r = 0xf5 :: r from rfl, decodeTy_cons,
        innerTy_7 _ _ _ _ _ _ r (by decide) (by rfl)]
    rfl

theorem textBranch_definite (g info aux : Nat) (k r : List Nat)
    (hinfo : info ≤ 27) (hlen : k.length = aux) :
    textBranch (g + 1) info aux (k ++ r) = some (k, r) := by
  rw [textBranch]
  rw [if_neg (by unfold varFollows; omega)]
  subst hlen
  rw [List.take_left, List.drop_left]
  simp

theorem bytesBranch_definite (g info aux : Nat) (k r : List Nat)
    (hinfo : info ≤ 27) (hlen : k.length = aux) :
    bytesBranch (g + 1) info aux (k ++ r) = some (k, r) := by
  rw [bytesBranch]
  rw [if_neg (by unfold varFollows; omega)]
  subst hlen
  unfold readFull
  rw [if_neg (by simp)]
  rw [List.take_left, List.drop_left]

theorem decode_enc_text (k : List Nat) (cur : V) (fuel : Nat) (r : List Nat)
    (hlen : k.length < 2 ^ 64) (hf : 3 ≤ fuel) :
    decodeTy .tstr cur fuel (writeText k ++ r) = some (.vstr k, r) := by
  obtain ⟨c, rest, he, hc1, hc2, hread⟩ :=
    decode_tagAuxOut cborText k.length mask_text hlen (k ++ r)
  obtain ⟨f, rfl⟩ : ∃ f, fuel = f + 3 := ⟨fuel - 3, by omega⟩
  rw [show writeText k ++ r = tagAuxOut cborText k.length ++ (k ++ r) from by
        unfold writeText; rw [List.append_assoc]]
  rw [he, decodeTy_cons, innerTy_text _ _ _ _ _ _ _ hc1 hread,
      textBranch_definite _ _ _ _ _ hc2 rfl]
  rfl

theorem decode_enc_bytes (b : List Nat) (cur : V) (fuel : Nat) (r : List Nat)
    (hlen : b.length < 2 ^ 64) (hf : 3 ≤ fuel) :
    decodeTy .tbytes cur fuel (writeBytes b ++ r) = some (.vbytes b, r) := by
  obtain ⟨c, rest, he, hc1, hc2, hread⟩ :=
    decode_tagAuxOut cborBytes b.length mask_bytes hlen (b ++ r)
  obtain ⟨f, rfl⟩ : ∃ f, fuel = f + 3 := ⟨fuel - 3, by omega⟩
  rw [show writeBytes b ++ r = tagAuxOut cborBytes b.length ++ (b ++ r) from by
        unfold writeBytes; rw [List.append_assoc]]
  rw [he, decodeTy_cons, innerTy_bytes _ _ _ _ _ _ _ hc1 hread,
      bytesBranch_definite _ _ _ _ _ hc2 rfl]
  rfl

end Cbor

namespace Cbor

/-! ### Order theory of the canonical key comparator -/

theorem bytesCompareLt_irrefl (a : List Nat) : bytesCompareLt a a = false := by
  induction a with
  | nil => rfl
  | cons x xs ih => simp [bytesCompareLt, ih]

theorem bytesCompareLt_asymm (a b : List Nat) (h : bytesCompareLt a b = true) :
    bytesCompareLt b a = false := by
  induction a generalizing b with
  | nil =>
    cases b with
    | nil => simpa [bytesCompareLt] using h
    | cons y ys => rfl
  | cons x xs ih =>
    cases b with
    | nil => simp [bytesCompareLt] at h
    | cons y ys =>
      simp only [bytesCompareLt] at h ⊢
      rcases Nat.lt_trichotomy x y with hxy | hxy | hxy
      · rw [if_neg (by omega), if_pos hxy]
      · subst hxy
        rw [if_neg (by omega), if_neg (by omega)] at h ⊢
        exact ih ys h
      · rw [if_neg (by omega), if_pos hxy] at h
        exact absurd h (by simp)

theorem bytesCompareLt_eq_of_not (a b : List Nat) (hlen : a.length = b.length)
    (h1 : bytesCompareLt a b = false) (h2 : bytesCompareLt b a = false) : a = b := by
  induction a generalizing b with
  | nil =>
    cases b with
    | nil => rfl
    | cons y ys => simp at hlen
  | cons x xs ih =>
    cases b with
    | nil => simp at hlen
    | cons y ys =>
      simp only [bytesCompareLt] at h1 h2
      rcases Nat.lt_trichotomy x y with hxy | hxy | hxy
      · rw [if_pos hxy] at h1
        exact absurd h1 (by simp)
      · subst hxy
        rw [if_neg (by omega), if_neg (by omega)] at h1 h2
        rw [ih ys (by simpa using hlen) h1 h2]
      · rw [if_pos hxy] at h2
        exact absurd h2 (by simp)

theorem bytesCompareLt_trans (a b c : List Nat) (h1 : bytesCompareLt a b = true)
    (h2 : bytesCompareLt b c = true) : bytesCompareLt a c = true := by
  induction a generalizing b c with
  | nil =>
    cases c with
    | nil =>
      cases b with
      | nil => exact h1
      | cons y ys => simp [bytesCompareLt] at h2
    | cons z zs => rfl
  | cons x xs ih =>
    cases b with
    | nil => simp [bytesCompareLt] at h1
    | cons y ys =>
      cases c with
      | nil => simp [bytesCompareLt] at h2
      | cons z zs =>
        simp only [bytesCompareLt] at h1 h2 ⊢
        rcases Nat.lt_trichotomy x y with hxy | hxy | hxy
        · rcases Nat.lt_trichotomy y z with hyz | hyz | hyz
          · rw [if_pos (by omega)]
          · subst hyz
            rw [if_pos hxy]
          · rw [if_neg (by omega), if_pos hyz] at h2
            exact absurd h2 (by simp)
        · subst hxy
          rcases Nat.lt_trichotomy x z with hxz | hxz | hxz
          · rw [if_pos hxz]
          · subst hxz
            rw [if_neg (by omega), if_neg (by omega)] at h1 h2 ⊢
            exact ih ys zs h1 h2
          · rw [if_neg (by omega), if_pos hxz] at h2
            exact absurd h2 (by simp)
        · rw [if_neg (by omega), if_pos hxy] at h1
          exact absurd h1 (by simp)

end Cbor

namespace Cbor

theorem less_asymm (x y : List Nat) (h : cborKeySorterLess x y = true) :
    cborKeySorterLess y x = false := by
  unfold cborKeySorterLess at h ⊢
  rcases Nat.lt_trichotomy (keyBytesFromEncoded x).length (keyBytesFromEncoded y).length with
    hl | hl | hl
  · rw [if_neg (by omega), if_pos hl]
  · rw [if_neg (by omega), if_neg (by omega)] at h ⊢
    exact bytesCompareLt_asymm _ _ h
  · rw [if_neg (by omega), if_pos hl] at h
    exact absurd h (by simp)

theorem less_connex (x y : List Nat) (h1 : cborKeySorterLess x y = false)
    (h2 : cborKeySorterLess y x = false) :
    keyBytesFromEncoded x = keyBytesFromEncoded y := by
  unfold cborKeySorterLess at h1 h2
  rcases Nat.lt_trichotomy (keyBytesFromEncoded x).length (keyBytesFromEncoded y).length with
    hl | hl | hl
  · rw [if_pos hl] at h1
    exact absurd h1 (by simp)
  · rw [if_neg (by omega), if_neg (by omega)] at h1 h2
    exact bytesCompareLt_eq_of_not _ _ hl h1 h2
  · rw [if_pos hl] at h2
    exact absurd h2 (by simp)

theorem less_total_of_ne (x y : List Nat)
    (hne : keyBytesFromEncoded x ≠ keyBytesFromEncoded y)
    (h : cborKeySorterLess y x = false) : cborKeySorterLess x y = true := by
  by_cases h2 : cborKeySorterLess x y = true
  · exact h2
  · exact absurd (less_connex x y (by simpa using h2) h) hne

theorem less_le_trans (a b c : List Nat) (h1 : cborKeySorterLess b a = false)
    (h2 : cborKeySorterLess c b = false) : cborKeySorterLess c a = false := by
  by_cases hca : cborKeySorterLess c a = true
  · -- show a contradiction from strict c < a together with b ≥ a, c ≥ b
    exfalso
    unfold cborKeySorterLess at h1 h2 hca
    rcases Nat.lt_trichotomy (keyBytesFromEncoded c).length (keyBytesFromEncoded b).length with
      hcb | hcb | hcb
    · rw [if_pos hcb] at h2
      exact absurd h2 (by simp)
    · rcases Nat.lt_trichotomy (keyBytesFromEncoded b).length
        (keyBytesFromEncoded a).length with hba | hba | hba
      · rw [if_pos hba] at h1
        exact absurd h1 (by simp)
      · rw [if_neg (by omega), if_neg (by omega)] at h1 h2 hca
        by_cases hbc : bytesCompareLt (keyBytesFromEncoded b) (keyBytesFromEncoded c) = true
        · by_cases hab : bytesCompareLt (keyBytesFromEncoded a)
              (keyBytesFromEncoded b) = true
          · have hac := bytesCompareLt_trans _ _ _ hab hbc
            rw [bytesCompareLt_asymm _ _ hac] at hca
            exact absurd hca (by simp)
          · have heq := bytesCompareLt_eq_of_not _ _ (by omega) (by simpa using hab) h1
            rw [heq] at hca
            rw [bytesCompareLt_asymm _ _ hbc] at hca
            exact absurd hca (by simp)
        · have heq := bytesCompareLt_eq_of_not _ _ (by omega) (by simpa using hbc) h2
          rw [heq] at h1
          exact absurd hca (by simp [h1])
      · rw [if_neg (by omega), if_pos (by omega)] at hca
        exact absurd hca (by simp)
    · rcases Nat.lt_trichotomy (keyBytesFromEncoded b).length
        (keyBytesFromEncoded a).length with hba | hba | hba
      · rw [if_pos hba] at h1
        exact absurd h1 (by simp)
      · rw [if_neg (by omega), if_pos (by omega)] at hca
        exact absurd hca (by simp)
      · rw [if_neg (by omega), if_pos (by omega)] at hca
        exact absurd hca (by simp)
  · simpa using hca

end Cbor

namespace Cbor

instance : IsTotal (List Nat × List Nat) keyPairLe where
  total a b := by
    unfold keyPairLe
    by_cases h : cborKeySorterLess b.1 a.1 = true
    · exact Or.inr (less_asymm _ _ h)
    · exact Or.inl (by simpa using h)

instance : IsTrans (List Nat × List Nat) keyPairLe where
  trans a b c hab hbc := less_le_trans a.1 b.1 c.1 hab hbc

/-- The strict version of the pairwise key order. -/
def keyPairLt (a b : List Nat × List Nat) : Prop :=
  cborKeySorterLess a.1 b.1 = true

instance : IsAntisymm (List Nat × List Nat) keyPairLt where
  antisymm a b hab hba := absurd hba (by simp [keyPairLt, less_asymm _ _ hab])

instance : IsTotal (List Nat × V) entryLe where
  total a b := by
    unfold entryLe
    by_cases h : cborKeySorterLess (writeText b.1) (writeText a.1) = true
    · exact Or.inr (less_asymm _ _ h)
    · exact Or.inl (by simpa using h)

instance : IsTrans (List Nat × V) entryLe where
  trans a b c hab hbc := less_le_trans _ _ _ hab hbc

/-- The payload of an encoded text key is exactly the key: the header
dropped by keyBytesFromEncoded is exactly what writeText prepends. -/
theorem keyBytes_writeText (k : List Nat) :
    keyBytesFromEncoded (writeText k) = k := by
  unfold writeText tagAuxOut
  split_ifs with h1 h2 h3 h4
  · obtain ⟨_, hm⟩ := mask_text k.length (by omega)
    unfold keyBytesFromEncoded
    simp only [List.cons_append, List.nil_append, List.headD_cons]
    rw [hm, if_pos h1]
    simp
  · obtain ⟨_, hm⟩ := mask_text int8Follows (by decide)
    unfold keyBytesFromEncoded
    simp only [List.cons_append, List.nil_append, List.headD_cons]
    rw [hm]
    norm_num [int8Follows, int16Follows, int32Follows, int64Follows]
  · obtain ⟨_, hm⟩ := mask_text int16Follows (by decide)
    unfold keyBytesFromEncoded
    simp only [List.cons_append, List.nil_append, List.headD_cons]
    rw [hm]
    norm_num [int8Follows, int16Follows, int32Follows, int64Follows]
  · obtain ⟨_, hm⟩ := mask_text int32Follows (by decide)
    unfold keyBytesFromEncoded
    simp only [List.cons_append, List.nil_append, List.headD_cons]
    rw [hm]
    norm_num [int8Follows, int16Follows, int32Follows, int64Follows]
  · obtain ⟨_, hm⟩ := mask_text int64Follows (by decide)
    unfold tagAux64 keyBytesFromEncoded
    simp only [List.cons_append, List.nil_append, List.headD_cons]
    rw [hm]
    norm_num [int8Follows, int16Follows, int32Follows, int64Follows]

end Cbor

namespace Cbor

/-- The payload-distinctness of entries. -/
def payloadNe (a b : List Nat × List Nat) : Prop :=
  keyBytesFromEncoded a.1 ≠ keyBytesFromEncoded b.1

theorem sortPairs_perm (l : List (List Nat × List Nat)) : (sortPairs l).Perm l :=
  List.perm_insertionSort _ _

theorem sortPairs_sorted (l : List (List Nat × List Nat)) :
    List.Sorted keyPairLe (sortPairs l) :=
  List.sorted_insertionSort _ _

theorem sortPairs_sorted_strict (l : List (List Nat × List Nat))
    (hnd : l.Pairwise payloadNe) : List.Sorted keyPairLt (sortPairs l) := by
  have hsym : ∀ {x y : List Nat × List Nat}, payloadNe x y → payloadNe y x :=
    fun h => Ne.symm h
  have hnd2 : (sortPairs l).Pairwise payloadNe :=
    ((sortPairs_perm l).pairwise_iff hsym).2 hnd
  have hcomb := (sortPairs_sorted l).and hnd2
  exact hcomb.imp (fun h => less_total_of_ne _ _ h.2 h.1)

/-- Two permutations of the same entry table with pairwise distinct key
payloads sort identically — the canonical order ignores the iteration
order of the Go map. -/
theorem sortPairs_congr (l1 l2 : List (List Nat × List Nat)) (hperm : l1.Perm l2)
    (hnd : l1.Pairwise payloadNe) : sortPairs l1 = sortPairs l2 := by
  have hsym : ∀ {x y : List Nat × List Nat}, payloadNe x y → payloadNe y x :=
    fun h => Ne.symm h
  have hnd2 : l2.Pairwise payloadNe := (hperm.pairwise_iff hsym).1 hnd
  have hp : (sortPairs l1).Perm (sortPairs l2) :=
    ((sortPairs_perm l1).trans hperm).trans (sortPairs_perm l2).symm
  exact List.eq_of_perm_of_sorted hp (sortPairs_sorted_strict l1 hnd)
    (sortPairs_sorted_strict l2 hnd2)

theorem encodePairs_eq_map (l : List (List Nat × V)) :
    encodePairs l = l.map (fun e => (writeText e.1, encodeV e.2)) := by
  induction l with
  | nil => rfl
  | cons e es ih =>
    obtain ⟨k, v⟩ := e
    simp [encodePairs, ih]

theorem encodePairs_payloadNe (l : List (List Nat × V))
    (hnd : (l.map Prod.fst).Nodup) : (encodePairs l).Pairwise payloadNe := by
  rw [encodePairs_eq_map, List.pairwise_map]
  have h1 : l.Pairwise (fun a b : List Nat × V => a.1 ≠ b.1) := by
    rw [List.Nodup, List.pairwise_map] at hnd
    exact hnd
  exact h1.imp (fun h => by
    simp only [payloadNe, keyBytes_writeText]
    exact h)

end Cbor

namespace Cbor

/-! ### Small facts about map insertion and struct field access -/

theorem tyMapSet_fresh (m : List (List Nat × V)) (k : List Nat) (v : V)
    (h : k ∉ m.map Prod.fst) : tyMapSet m k v = m ++ [(k, v)] := by
  induction m with
  | nil => rfl
  | cons e es ih =>
    obtain ⟨k0, v0⟩ := e
    simp only [List.map_cons, List.mem_cons] at h
    push_neg at h
    show (if (k0 == k) = true then (k0, v) :: es else (k0, v0) :: tyMapSet es k v) = _
    rw [if_neg (by simp only [beq_iff_eq]; exact fun heq => h.1 heq.symm)]
    rw [ih h.2]
    rfl

theorem getFieldD_append_left_skip (l1 l2 : List (List Nat × V)) (k : List Nat) (d : V)
    (h : k ∉ l1.map Prod.fst) : getFieldD (l1 ++ l2) k d = getFieldD l2 k d := by
  induction l1 with
  | nil => rfl
  | cons e es ih =>
    obtain ⟨k0, v0⟩ := e
    simp only [List.map_cons, List.mem_cons] at h
    push_neg at h
    show (if (k0 == k) = true then v0 else getFieldD (es ++ l2) k d) = _
    rw [if_neg (by simp only [beq_iff_eq]; exact fun heq => h.1 heq.symm)]
    exact ih h.2

theorem setField_append_left_skip (l1 l2 : List (List Nat × V)) (k : List Nat) (v : V)
    (h : k ∉ l1.map Prod.fst) : setField (l1 ++ l2) k v = l1 ++ setField l2 k v := by
  induction l1 with
  | nil => rfl
  | cons e es ih =>
    obtain ⟨k0, v0⟩ := e
    simp only [List.map_cons, List.mem_cons] at h
    push_neg at h
    show (if (k0 == k) = true then (k0, v) :: (es ++ l2)
          else (k0, v0) :: setField (es ++ l2) k v) = _
    rw [if_neg (by simp only [beq_iff_eq]; exact fun heq => h.1 heq.symm)]
    rw [ih h.2]
    rfl

theorem fieldMatch_self (k : List Nat) : fieldMatch k k = true := by
  simp [fieldMatch]

theorem eqFold_refl (k : List Nat) : eqFold k k = true := by simp [eqFold]

theorem fieldMatch_false_of_not_fold (n k : List Nat) (h : eqFold n k = false) :
    fieldMatch n k = false := by
  unfold fieldMatch
  rw [h, Bool.or_false]
  rcases Bool.eq_false_or_eq_true (n == k) with ht | hf
  swap
  · exact hf
  · have hnk : n = k := by simpa using ht
    subst hnk
    rw [eqFold_refl] at h
    exact absurd h (by simp)

theorem structFieldFind_append_skip (l1 l2 : List (List Nat × Ty)) (k : List Nat)
    (h : ∀ n ∈ l1.map Prod.fst, fieldMatch n k = false) :
    structFieldFind (l1 ++ l2) k = structFieldFind l2 k := by
  induction l1 with
  | nil => rfl
  | cons e es ih =>
    obtain ⟨n, t⟩ := e
    show (if fieldMatch n k = true then some (n, t) else structFieldFind (es ++ l2) k) = _
    rw [if_neg (by simp [h n (by simp)])]
    exact ih (fun m hm => h m (by simp [hm]))

theorem structFieldFind_head (n : List Nat) (t : Ty) (l : List (List Nat × Ty)) :
    structFieldFind ((n, t) :: l) n = some (n, t) := by
  show (if fieldMatch n n = true then some (n, t) else structFieldFind l n) = _
  rw [if_pos (fieldMatch_self n)]

theorem foldDistinct_cons (x : List Nat) (xs : List (List Nat)) :
    foldDistinct (x :: xs) = ((xs.all fun m => !eqFold x m) && foldDistinct xs) := rfl

theorem foldDistinct_append_iff (l1 l2 : List (List Nat)) :
    foldDistinct (l1 ++ l2) = true ↔
      foldDistinct l1 = true ∧ foldDistinct l2 = true ∧
      ∀ n ∈ l1, ∀ m ∈ l2, eqFold n m = false := by
  induction l1 with
  | nil => simp [foldDistinct]
  | cons x xs ih =>
    rw [List.cons_append, foldDistinct_cons, foldDistinct_cons, Bool.and_eq_true,
        Bool.and_eq_true, ih]
    simp only [List.all_eq_true, List.mem_append, Bool.not_eq_true']
    constructor
    · rintro ⟨hall, h1, h2, h3⟩
      refine ⟨⟨fun m hm => hall m (Or.inl hm), h1⟩, h2, ?_⟩
      intro n hn m hm
      rcases List.mem_cons.1 hn with rfl | hn2
      · exact hall m (Or.inr hm)
      · exact h3 n hn2 m hm
    · rintro ⟨⟨ha, h1⟩, h2, h3⟩
      refine ⟨?_, h1, h2, fun n hn m hm => h3 n (List.mem_cons_of_mem _ hn) m hm⟩
      intro m hm
      rcases hm with hm1 | hm2
      · exact ha m hm1
      · exact h3 x (List.mem_cons_self _ _) m hm2

end Cbor

namespace Cbor

/-! ### Evaluation identities for the typed loops -/

theorem tyArrN_zero (et : Ty) (f : Nat) (acc : List V) (s : List Nat) :
    tyArrN et (f + 1) 0 acc s = some (acc, s) := rfl

theorem tyArrN_succ (et : Ty) (f n : Nat) (acc : List V) (s : List Nat) :
    tyArrN et (f + 1) (n + 1) acc s =
      (match decodeTy et (zeroOfTy et) f s with
       | none => none
       | some (v, s1) => tyArrN et f n (acc ++ [v]) s1) := rfl

theorem tyMapN_zero (vt : Ty) (f : Nat) (acc : List (List Nat × V)) (s : List Nat) :
    tyMapN vt (f + 1) 0 acc s = some (acc, s) := rfl

theorem tyMapN_succ (vt : Ty) (f n : Nat) (acc : List (List Nat × V)) (s : List Nat) :
    tyMapN vt (f + 1) (n + 1) acc s =
      (match decodeTy .tstr (zeroOfTy .tstr) f s with
       | none => none
       | some (.vstr k, s1) =>
         match decodeTy vt (zeroOfTy vt) f s1 with
         | none => none
         | some (v, s2) => tyMapN vt f n (tyMapSet acc k v) s2
       | some _ => none) := rfl

theorem tyStructN_zero (ftys : List (List Nat × Ty)) (f : Nat)
    (fvals : List (List Nat × V)) (s : List Nat) :
    tyStructN ftys (f + 1) 0 fvals s = some (fvals, s) := rfl

theorem tyStructN_succ (ftys : List (List Nat × Ty)) (f n : Nat)
    (fvals : List (List Nat × V)) (s : List Nat) :
    tyStructN ftys (f + 1) (n + 1) fvals s =
      (match decodeTy .tstr (zeroOfTy .tstr) f s with
       | none => none
       | some (.vstr k, s1) =>
         match structFieldFind ftys k with
         | none =>
           match decodeGen f s1 with
           | none => none
           | some (_, s2) => tyStructN ftys f n fvals s2
         | some (fn, ft) =>
           match decodeTy ft (getFieldD fvals fn (zeroOfTy ft)) f s1 with
           | none => none
           | some (v, s2) => tyStructN ftys f n (setField fvals fn v) s2
       | some _ => none) := rfl

theorem arrayTy_tarr (et : Ty) (cur : V) (f info aux : Nat) (s1 : List Nat)
    (hinfo : info ≤ 27) :
    arrayTy (.tarr et) cur (f + 1) info aux s1 =
      (match tyArrN et f aux (arrElems cur) s1 with
       | none => none
       | some (xs, s2) => some (.varr xs, s2)) := by
  rw [arrayTy]
  rw [if_neg (by unfold varFollows; omega)]

theorem mapTy_tmap (vt : Ty) (cur : V) (f info aux : Nat) (s1 : List Nat)
    (hinfo : info ≤ 27) :
    mapTy (.tmap vt) cur (f + 1) info aux s1 =
      (match tyMapN vt f aux (mapElems cur) s1 with
       | none => none
       | some (kvs, s2) => some (.vmap kvs, s2)) := by
  rw [mapTy]
  rw [if_neg (by unfold varFollows; omega)]

theorem mapTy_tstruct (ftys : List (List Nat × Ty)) (cur : V) (f info aux : Nat)
    (s1 : List Nat) (hinfo : info ≤ 27) :
    mapTy (.tstruct ftys) cur (f + 1) info aux s1 =
      (match tyStructN ftys f aux (structElems ftys cur) s1 with
       | none => none
       | some (fs, s2) => some (.vstruct fs, s2)) := by
  rw [mapTy]
  rw [if_neg (by unfold varFollows; omega)]

theorem getFieldD_head (k : List Nat) (v : V) (l : List (List Nat × V)) (d : V) :
    getFieldD ((k, v) :: l) k d = v := by
  show (if (k == k) = true then v else getFieldD l k d) = v
  simp

theorem setField_head (k : List Nat) (v w : V) (l : List (List Nat × V)) :
    setField ((k, v) :: l) k w = (k, w) :: l := by
  show (if (k == k) = true then (k, w) :: l else (k, v) :: setField l k w) = _
  simp

/-! ### Size bookkeeping -/

theorem sizeV_pos (v : V) : 3 ≤ sizeV v := by
  cases v <;> simp [sizeV] <;> omega

theorem sizeList_cons (v : V) (vs : List V) :
    sizeList (v :: vs) = 1 + sizeV v + sizeList vs := rfl

theorem sizePairs_cons (k : List Nat) (v : V) (kvs : List (List Nat × V)) :
    sizePairs ((k, v) :: kvs) = 4 + sizeV v + sizePairs kvs := rfl

theorem sizeList_pos (vs : List V) : 1 ≤ sizeList vs := by
  cases vs with
  | nil => simp [sizeList]
  | cons v vs => rw [sizeList_cons]; omega

theorem sizePairs_pos (kvs : List (List Nat × V)) : 1 ≤ sizePairs kvs := by
  cases kvs with
  | nil => simp [sizePairs]
  | cons e es => obtain ⟨k, v⟩ := e; rw [sizePairs_cons]; omega

theorem sizeList_mem (v : V) (vs : List V) (h : v ∈ vs) : sizeV v + 1 ≤ sizeList vs := by
  induction vs with
  | nil => simp at h
  | cons x xs ih =>
    rw [sizeList_cons]
    rcases List.mem_cons.1 h with rfl | h2
    · have := sizeList_pos xs
      omega
    · have := ih h2
      omega

theorem sizePairs_mem (k : List Nat) (v : V) (kvs : List (List Nat × V))
    (h : (k, v) ∈ kvs) : sizeV v + 4 ≤ sizePairs kvs := by
  induction kvs with
  | nil => simp at h
  | cons e es ih =>
    obtain ⟨k0, v0⟩ := e
    rw [sizePairs_cons]
    rcases List.mem_cons.1 h with heq | h2
    · obtain ⟨rfl, rfl⟩ := Prod.mk.injEq k0 v0 k v ▸ heq.symm
      have := sizePairs_pos es
      omega
    · have := ih h2
      omega

theorem sizePairs_eq_sum (l : List (List Nat × V)) :
    sizePairs l = 1 + (l.map (fun e => 4 + sizeV e.2)).sum := by
  induction l with
  | nil => simp [sizePairs]
  | cons e es ih =>
    obtain ⟨k, v⟩ := e
    rw [sizePairs_cons, ih]
    simp
    omega

theorem sizePairs_perm (l1 l2 : List (List Nat × V)) (h : l1.Perm l2) :
    sizePairs l1 = sizePairs l2 := by
  rw [sizePairs_eq_sum, sizePairs_eq_sum, (h.map (fun e => 4 + sizeV e.2)).sum_eq]

end Cbor

namespace Cbor

/-! ### Sorting commutes with key-preserving maps -/

/-- Sorting the pre-encoded entry table is the image of sorting the
caller entries: the comparator only looks at the encoded keys. -/
theorem sortPairs_encodePairs (kvs : List (List Nat × V)) :
    sortPairs (encodePairs kvs) = encodePairs (sortEntries kvs) := by
  rw [encodePairs_eq_map, encodePairs_eq_map, sortPairs, sortEntries]
  exact (List.map_insertionSort entryLe keyPairLe
    (fun e => (writeText e.1, encodeV e.2)) kvs (fun a _ b _ => Iff.rfl)).symm

theorem canonPairs_eq_map (l : List (List Nat × V)) :
    canonPairs l = l.map (fun e => (e.1, canonV e.2)) := by
  induction l with
  | nil => rfl
  | cons e es ih =>
    obtain ⟨k, v⟩ := e
    simp [canonPairs, ih]

theorem canonPairs_fst (l : List (List Nat × V)) :
    (canonPairs l).map Prod.fst = l.map Prod.fst := by
  rw [canonPairs_eq_map]
  simp

/-- Canonicalising the values of the entries commutes with sorting:
the comparator only looks at the keys, which are untouched. -/
theorem canonPairs_sortEntries (kvs : List (List Nat × V)) :
    sortEntries (canonPairs kvs) = canonPairs (sortEntries kvs) := by
  rw [canonPairs_eq_map, canonPairs_eq_map, sortEntries, sortEntries]
  exact (List.map_insertionSort entryLe entryLe
    (fun e => (e.1, canonV e.2)) kvs (fun a _ b _ => Iff.rfl)).symm

theorem sortEntries_perm (kvs : List (List Nat × V)) : (sortEntries kvs).Perm kvs :=
  List.perm_insertionSort _ _

theorem sortEntries_length (kvs : List (List Nat × V)) :
    (sortEntries kvs).length = kvs.length :=
  (sortEntries_perm kvs).length_eq

theorem sortEntries_fst_nodup (kvs : List (List Nat × V))
    (h : (kvs.map Prod.fst).Nodup) : ((sortEntries kvs).map Prod.fst).Nodup :=
  (((sortEntries_perm kvs).map Prod.fst).nodup_iff).2 h

theorem sortEntries_sizePairs (kvs : List (List Nat × V)) :
    sizePairs (sortEntries kvs) = sizePairs kvs :=
  sizePairs_perm _ _ (sortEntries_perm kvs)

theorem sortEntries_mem (e : List Nat × V) (kvs : List (List Nat × V))
    (h : e ∈ sortEntries kvs) : e ∈ kvs :=
  (sortEntries_perm kvs).mem_iff.1 h

/-! ### Membership consequences of well-formedness -/

theorem wfList_mem (et : Ty) (vs : List V) (v : V) (h : v ∈ vs)
    (hwf : wfList et vs = true) : wfT et v = true := by
  induction vs with
  | nil => simp at h
  | cons x xs ih =>
    simp only [wfList, Bool.and_eq_true] at hwf
    rcases List.mem_cons.1 h with rfl | h2
    · exact hwf.1
    · exact ih h2 hwf.2

theorem wfPairs_mem (vt : Ty) (kvs : List (List Nat × V)) (k : List Nat) (v : V)
    (h : (k, v) ∈ kvs) (hwf : wfPairs vt kvs = true) : wfT vt v = true := by
  induction kvs with
  | nil => simp at h
  | cons e es ih =>
    obtain ⟨k0, v0⟩ := e
    simp only [wfPairs, Bool.and_eq_true] at hwf
    rcases List.mem_cons.1 h with heq | h2
    · obtain ⟨rfl, rfl⟩ := Prod.mk.injEq k0 v0 k v ▸ heq.symm
      exact hwf.1
    · exact ih h2 hwf.2

/-- wfFields, unpacked into the pointwise relation it checks. -/
theorem wfFields_forall2 (ftys : List (List Nat × Ty)) (fs : List (List Nat × V))
    (h : wfFields ftys fs = true) :
    List.Forall₂ (fun (a : List Nat × Ty) (b : List Nat × V) =>
      a.1 = b.1 ∧ wfT a.2 b.2 = true) ftys fs := by
  induction ftys generalizing fs with
  | nil =>
    cases fs with
    | nil => exact List.Forall₂.nil
    | cons b bs => simp [wfFields] at h
  | cons a as ih =>
    obtain ⟨n1, t⟩ := a
    cases fs with
    | nil => simp [wfFields] at h
    | cons b bs =>
      obtain ⟨n2, v⟩ := b
      simp only [wfFields, Bool.and_eq_true, beq_iff_eq] at h
      exact List.Forall₂.cons ⟨h.1.1, h.1.2⟩ (ih bs h.2)

theorem wfFields_names (ftys : List (List Nat × Ty)) (fs : List (List Nat × V))
    (h : wfFields ftys fs = true) : ftys.map Prod.fst = fs.map Prod.fst := by
  induction ftys generalizing fs with
  | nil =>
    cases fs with
    | nil => rfl
    | cons b bs => simp [wfFields] at h
  | cons a as ih =>
    obtain ⟨n1, t⟩ := a
    cases fs with
    | nil => simp [wfFields] at h
    | cons b bs =>
      obtain ⟨n2, v⟩ := b
      simp only [wfFields, Bool.and_eq_true, beq_iff_eq] at h
      simp only [List.map_cons, h.1.1, ih bs h.2]

/-! ### structAssigner lookups under pairwise fold-distinct names -/

theorem foldDistinct_nodup (l : List (List Nat)) (h : foldDistinct l = true) :
    l.Nodup := by
  induction l with
  | nil => exact List.nodup_nil
  | cons x xs ih =>
    rw [foldDistinct_cons, Bool.and_eq_true] at h
    refine List.nodup_cons.2 ⟨fun hmem => ?_, ih h.2⟩
    have hx := (List.all_eq_true.1 h.1) x hmem
    rw [eqFold_refl] at hx
    exact absurd hx (by simp)

/-- With pairwise fold-distinct field names, ReflectValueForKey applied
to a declared field name finds exactly that field. -/
theorem structFieldFind_self (l : List (List Nat × Ty)) (n : List Nat) (t : Ty)
    (hd : foldDistinct (l.map Prod.fst) = true) (hm : (n, t) ∈ l) :
    structFieldFind l n = some (n, t) := by
  induction l with
  | nil => simp at hm
  | cons a l' ih =>
    obtain ⟨m, u⟩ := a
    simp only [List.map_cons] at hd
    rw [foldDistinct_cons, Bool.and_eq_true] at hd
    rcases List.mem_cons.1 hm with heq | h2
    · obtain ⟨rfl, rfl⟩ := Prod.mk.injEq m u n t ▸ heq.symm
      exact structFieldFind_head _ _ l'
    · have hnm : n ∈ l'.map Prod.fst :=
        List.mem_map.2 ⟨(n, t), h2, rfl⟩
      have hfold : eqFold m n = false := by
        have := (List.all_eq_true.1 hd.1) n hnm
        simpa using this
      show (if fieldMatch m n = true then some (m, u) else structFieldFind l' n) = _
      rw [if_neg (by simp [fieldMatch_false_of_not_fold m n hfold])]
      exact ih hd.2 h2

theorem zeroFields_cons (n : List Nat) (t : Ty) (fs : List (List Nat × Ty)) :
    zeroFields ((n, t) :: fs) = (n, zeroOfTy t) :: zeroFields fs := rfl

end Cbor

namespace Cbor

/-! ### Heads of encoded items -/

theorem tagAuxOut_head (tag x : Nat) :
    ∃ i rest, i ≤ 27 ∧ tagAuxOut tag x = (tag ||| i) :: rest := by
  unfold tagAuxOut tagAux64
  split_ifs with h1 h2 h3 h4
  · exact ⟨x, [], by omega, rfl⟩
  · exact ⟨int8Follows, _, by decide, rfl⟩
  · exact ⟨int16Follows, _, by decide, rfl⟩
  · exact ⟨int32Follows, _, by decide, rfl⟩
  · exact ⟨int64Follows, _, by decide, rfl⟩

theorem tagAuxOut_head_ne_ff (tag x : Nat)
    (hmask : ∀ i, i ≤ 27 →
      (tag ||| i) &&& typeMask = tag ∧ (tag ||| i) &&& infoBits = i) :
    ∃ c rest, tagAuxOut tag x = c :: rest ∧ c ≠ 0xff := by
  obtain ⟨i, rest, hi, he⟩ := tagAuxOut_head tag x
  refine ⟨tag ||| i, rest, he, fun hc => ?_⟩
  have h2 := (hmask i hi).2
  rw [hc] at h2
  have h3 : (0xff &&& infoBits : Nat) = 31 := by decide
  omega

/-- Every encoded item starts with an initial byte, and that byte is
never the break marker 0xff. -/
theorem encodeV_head (v : V) : ∃ c rest, encodeV v = c :: rest ∧ c ≠ 0xff := by
  cases v with
  | vuint w u =>
    obtain ⟨c, rest, he, hne⟩ := tagAuxOut_head_ne_ff cborUint u mask_uint
    exact ⟨c, rest, by rw [show encodeV (.vuint w u) = tagAuxOut cborUint u from rfl, he], hne⟩
  | vint w i =>
    by_cases hneg : i < 0
    · obtain ⟨c, rest, he, hne⟩ :=
        tagAuxOut_head_ne_ff cborNegint (-1 - i).toNat mask_negint
      refine ⟨c, rest, ?_, hne⟩
      rw [show encodeV (.vint w i) = writeInt i from rfl]
      unfold writeInt
      rw [if_pos hneg, he]
    · obtain ⟨c, rest, he, hne⟩ := tagAuxOut_head_ne_ff cborUint i.toNat mask_uint
      refine ⟨c, rest, ?_, hne⟩
      rw [show encodeV (.vint w i) = writeInt i from rfl]
      unfold writeInt
      rw [if_neg hneg, he]
  | vf64 bits =>
    exact ⟨cbor7 ||| int64Follows, _, rfl, by decide⟩
  | vstr s =>
    obtain ⟨c, rest, he, hne⟩ := tagAuxOut_head_ne_ff cborText s.length mask_text
    exact ⟨c, rest ++ s,
      by rw [show encodeV (.vstr s) = tagAuxOut cborText s.length ++ s from rfl, he]; rfl,
      hne⟩
  | vbytes b =>
    obtain ⟨c, rest, he, hne⟩ := tagAuxOut_head_ne_ff cborBytes b.length mask_bytes
    exact ⟨c, rest ++ b,
      by rw [show encodeV (.vbytes b) = tagAuxOut cborBytes b.length ++ b from rfl, he]; rfl,
      hne⟩
  | vbool b =>
    cases b
    · exact ⟨0xf4, [], rfl, by decide⟩
    · exact ⟨0xf5, [], rfl, by decide⟩
  | varr xs =>
    obtain ⟨c, rest, he, hne⟩ := tagAuxOut_head_ne_ff cborArray xs.length mask_array
    exact ⟨c, rest ++ encodeList xs,
      by rw [show encodeV (.varr xs) = tagAuxOut cborArray xs.length ++ encodeList xs from rfl,
             he]; rfl,
      hne⟩
  | vmap kvs =>
    obtain ⟨c, rest, he, hne⟩ := tagAuxOut_head_ne_ff cborMap kvs.length mask_map
    exact ⟨c, rest ++ emitPairs (sortPairs (encodePairs kvs)),
      by rw [show encodeV (.vmap kvs) =
               tagAuxOut cborMap kvs.length ++ emitPairs (sortPairs (encodePairs kvs)) from rfl,
             he]; rfl,
      hne⟩
  | vstruct fs =>
    obtain ⟨c, rest, he, hne⟩ := tagAuxOut_head_ne_ff cborMap fs.length mask_map
    exact ⟨c, rest ++ encodeFields fs,
      by rw [show encodeV (.vstruct fs) = tagAuxOut cborMap fs.length ++ encodeFields fs from rfl,
             he]; rfl,
      hne⟩

theorem arrayTy_tarr_var (et : Ty) (cur : V) (f aux : Nat) (s1 : List Nat) :
    arrayTy (.tarr et) cur (f + 1) varFollows aux s1 =
      (match tyArrVar et f (arrElems cur) s1 with
       | none => none
       | some (xs, s2) => some (.varr xs, s2)) := by
  rw [arrayTy]
  rw [if_pos rfl]

/-! ### Round trips through the typed container loops -/

/-- Decoding the concatenated element encodings with the definite-length
slice loop appends their canonical images after the accumulator. -/
theorem tyArrN_rt (et : Ty) (es : List V)
    (ihe : ∀ e ∈ es, ∀ f2 r2, sizeV e ≤ f2 →
      decodeTy et (zeroOfTy et) f2 (encodeV e ++ r2) = some (canonV e, r2)) :
    ∀ (fuel : Nat) (acc : List V) (r : List Nat), sizeList es ≤ fuel →
      tyArrN et fuel es.length acc (encodeList es ++ r) =
        some (acc ++ canonList es, r) := by
  induction es with
  | nil =>
    intro fuel acc r hf
    simp only [sizeList] at hf
    obtain ⟨f, rfl⟩ : ∃ f, fuel = f + 1 := ⟨fuel - 1, by omega⟩
    show tyArrN et (f + 1) 0 acc (encodeList [] ++ r) = _
    rw [tyArrN_zero]
    simp [encodeList, canonList]
  | cons v vs ih =>
    intro fuel acc r hf
    rw [sizeList_cons] at hf
    obtain ⟨f, rfl⟩ : ∃ f, fuel = f + 1 := ⟨fuel - 1, by omega⟩
    show tyArrN et (f + 1) (vs.length + 1) acc (encodeList (v :: vs) ++ r) = _
    rw [tyArrN_succ]
    rw [show encodeList (v :: vs) ++ r = encodeV v ++ (encodeList vs ++ r) from by
          rw [show encodeList (v :: vs) = encodeV v ++ encodeList vs from rfl,
              List.append_assoc]]
    have hv : decodeTy et (zeroOfTy et) f (encodeV v ++ (encodeList vs ++ r)) =
        some (canonV v, encodeList vs ++ r) :=
      ihe v (List.mem_cons_self _ _) f _ (by show sizeV v ≤ f; omega)
    rw [hv]
    dsimp only
    rw [ih (fun e he f2 r2 h2 => ihe e (List.mem_cons_of_mem v he) f2 r2 h2)
        f (acc ++ [canonV v]) r (by omega)]
    rw [show canonList (v :: vs) = canonV v :: canonList vs from rfl]
    rw [List.append_cons acc (canonV v) (canonList vs)]

/-- Decoding the element encodings followed by the break marker with the
indefinite slice loop appends their canonical images after the
accumulator. -/
theorem tyArrVar_rt (et : Ty) (es : List V)
    (ihe : ∀ e ∈ es, ∀ f2 r2, sizeV e ≤ f2 →
      decodeTy et (zeroOfTy et) f2 (encodeV e ++ r2) = some (canonV e, r2)) :
    ∀ (fuel : Nat) (acc : List V) (r : List Nat), sizeList es ≤ fuel →
      tyArrVar et fuel acc (encodeList es ++ (0xff :: r)) =
        some (acc ++ canonList es, r) := by
  induction es with
  | nil =>
    intro fuel acc r hf
    simp only [sizeList] at hf
    obtain ⟨f, rfl⟩ : ∃ f, fuel = f + 1 := ⟨fuel - 1, by omega⟩
    show tyArrVar et (f + 1) acc (encodeList [] ++ (0xff :: r)) = _
    rw [show encodeList ([] : List V) ++ (0xff :: r) = 0xff :: r from rfl]
    rw [show tyArrVar et (f + 1) acc (0xff :: r) = some (acc, r) from rfl]
    simp [canonList]
  | cons v vs ih =>
    intro fuel acc r hf
    rw [sizeList_cons] at hf
    obtain ⟨f, rfl⟩ : ∃ f, fuel = f + 1 := ⟨fuel - 1, by omega⟩
    obtain ⟨c, rest, he, hne⟩ := encodeV_head v
    rw [show encodeList (v :: vs) ++ (0xff :: r) =
          c :: (rest ++ (encodeList vs ++ (0xff :: r))) from by
        rw [show encodeList (v :: vs) = encodeV v ++ encodeList vs from rfl, he]
        simp [List.append_assoc]]
    rw [tyArrVar]
    rw [if_neg hne]
    have hinner : innerTy et (zeroOfTy et) f c (rest ++ (encodeList vs ++ (0xff :: r))) =
        some (canonV v, encodeList vs ++ (0xff :: r)) := by
      have h2 : decodeTy et (zeroOfTy et) (f + 1)
          (encodeV v ++ (encodeList vs ++ (0xff :: r))) =
          some (canonV v, encodeList vs ++ (0xff :: r)) :=
        ihe v (List.mem_cons_self _ _) (f + 1) _ (by show sizeV v ≤ f + 1; omega)
      rw [he] at h2
      rw [show (c :: rest) ++ (encodeList vs ++ (0xff :: r)) =
            c :: (rest ++ (encodeList vs ++ (0xff :: r))) from by simp] at h2
      rw [decodeTy_cons] at h2
      exact h2
    rw [hinner]
    dsimp only
    rw [ih (fun e he2 f2 r2 h2 => ihe e (List.mem_cons_of_mem v he2) f2 r2 h2)
        f (acc ++ [canonV v]) r (by omega)]
    rw [show canonList (v :: vs) = canonV v :: canonList vs from rfl]
    rw [List.append_cons acc (canonV v) (canonList vs)]

/-- Decoding the emitted entry table with the definite-length map loop
inserts the canonical entries, in table order, after the accumulator. -/
theorem tyMapN_rt (vt : Ty) (es : List (List Nat × V))
    (ihe : ∀ e ∈ es, ∀ f2 r2, sizeV e.2 ≤ f2 →
      decodeTy vt (zeroOfTy vt) f2 (encodeV e.2 ++ r2) = some (canonV e.2, r2))
    (hkeys : ∀ e ∈ es, (e.1 : List Nat).length < 2 ^ 64) :
    ∀ (fuel : Nat) (acc : List (List Nat × V)) (r : List Nat),
      sizePairs es ≤ fuel →
      (acc.map Prod.fst ++ es.map Prod.fst).Nodup →
      tyMapN vt fuel es.length acc (emitPairs (encodePairs es) ++ r) =
        some (acc ++ canonPairs es, r) := by
  induction es with
  | nil =>
    intro fuel acc r hf hnd
    simp only [sizePairs] at hf
    obtain ⟨f, rfl⟩ : ∃ f, fuel = f + 1 := ⟨fuel - 1, by omega⟩
    show tyMapN vt (f + 1) 0 acc (emitPairs (encodePairs []) ++ r) = _
    rw [tyMapN_zero]
    simp [encodePairs, emitPairs, canonPairs]
  | cons e es2 ih =>
    obtain ⟨k, v⟩ := e
    intro fuel acc r hf hnd
    rw [sizePairs_cons] at hf
    obtain ⟨f, rfl⟩ : ∃ f, fuel = f + 1 := ⟨fuel - 1, by omega⟩
    have hv3 := sizeV_pos v
    have hp1 := sizePairs_pos es2
    show tyMapN vt (f + 1) (es2.length + 1) acc
        (emitPairs (encodePairs ((k, v) :: es2)) ++ r) = _
    rw [tyMapN_succ]
    rw [show emitPairs (encodePairs ((k, v) :: es2)) ++ r =
          writeText k ++ (encodeV v ++ (emitPairs (encodePairs es2) ++ r)) from by
        simp [encodePairs, emitPairs, List.append_assoc]]
    have hkey : decodeTy .tstr (zeroOfTy .tstr) f
        (writeText k ++ (encodeV v ++ (emitPairs (encodePairs es2) ++ r))) =
        some (.vstr k, encodeV v ++ (emitPairs (encodePairs es2) ++ r)) :=
      decode_enc_text k _ f _
        (by have := hkeys (k, v) (List.mem_cons_self _ _); exact this) (by omega)
    rw [hkey]
    dsimp only
    have hval : decodeTy vt (zeroOfTy vt) f
        (encodeV v ++ (emitPairs (encodePairs es2) ++ r)) =
        some (canonV v, emitPairs (encodePairs es2) ++ r) :=
      ihe (k, v) (List.mem_cons_self _ _) f _ (by show sizeV v ≤ f; omega)
    rw [hval]
    dsimp only
    have hk_not : k ∉ acc.map Prod.fst := by
      have hdisj := List.disjoint_of_nodup_append hnd
      exact fun hmem => hdisj hmem (by simp)
    rw [tyMapSet_fresh acc k (canonV v) hk_not]
    rw [ih (fun e2 he2 f2 r2 h2 => ihe e2 (List.mem_cons_of_mem _ he2) f2 r2 h2)
        (fun e2 he2 => hkeys e2 (List.mem_cons_of_mem _ he2))
        f (acc ++ [(k, canonV v)]) r (by omega)
        (by simpa [List.append_assoc] using hnd)]
    rw [show canonPairs ((k, v) :: es2) = (k, canonV v) :: canonPairs es2 from rfl]
    rw [List.append_cons acc ((k, canonV v)) (canonPairs es2)]

/-- Decoding the emitted field table with the struct loop, starting from
fields not yet decoded still at their zero values: each wire key binds to
its own field, whose canonical decoded value is written in place. -/
theorem tyStructN_rt (ftys : List (List Nat × Ty)) :
    ∀ (ts : List (List Nat × Ty)) (vs : List (List Nat × V)),
      List.Forall₂ (fun (a : List Nat × Ty) (b : List Nat × V) =>
        a.1 = b.1 ∧ ∀ f2 r2, sizeV b.2 ≤ f2 →
          decodeTy a.2 (zeroOfTy a.2) f2 (encodeV b.2 ++ r2) =
            some (canonV b.2, r2)) ts vs →
      (∀ a ∈ ts, structFieldFind ftys a.1 = some a) →
      (∀ a ∈ ts, (a.1 : List Nat).length < 2 ^ 64) →
      ∀ (done : List (List Nat × V)) (fuel : Nat) (r : List Nat),
        sizePairs vs ≤ fuel →
        (done.map Prod.fst ++ ts.map Prod.fst).Nodup →
        tyStructN ftys fuel vs.length (done ++ zeroFields ts)
            (encodeFields vs ++ r) =
          some (done ++ canonPairs vs, r) := by
  intro ts
  induction ts with
  | nil =>
    intro vs hmatch hfind hkeys done fuel r hf hnd
    obtain rfl : vs = [] := List.forall₂_nil_left_iff.1 hmatch
    simp only [sizePairs] at hf
    obtain ⟨f, rfl⟩ : ∃ f, fuel = f + 1 := ⟨fuel - 1, by omega⟩
    show tyStructN ftys (f + 1) 0 (done ++ zeroFields []) (encodeFields [] ++ r) = _
    rw [tyStructN_zero]
    simp [zeroFields, encodeFields, canonPairs]
  | cons a ts2 ih =>
    obtain ⟨n, t⟩ := a
    intro vs hmatch hfind hkeys done fuel r hf hnd
    rcases List.forall₂_cons_left_iff.1 hmatch with ⟨b, vs2, hab, hmatch2, rfl⟩
    obtain ⟨k, v⟩ := b
    obtain ⟨hname, hrt⟩ := hab
    have hnk : n = k := hname
    subst hnk
    rw [sizePairs_cons] at hf
    have hv3 := sizeV_pos v
    have hp1 := sizePairs_pos vs2
    obtain ⟨f, rfl⟩ : ∃ f, fuel = f + 1 := ⟨fuel - 1, by omega⟩
    show tyStructN ftys (f + 1) (vs2.length + 1) (done ++ zeroFields ((n, t) :: ts2))
        (encodeFields ((n, v) :: vs2) ++ r) = _
    rw [tyStructN_succ]
    rw [show encodeFields ((n, v) :: vs2) ++ r =
          writeText n ++ (encodeV v ++ (encodeFields vs2 ++ r)) from by
        simp [encodeFields, List.append_assoc]]
    have hkey : decodeTy .tstr (zeroOfTy .tstr) f
        (writeText n ++ (encodeV v ++ (encodeFields vs2 ++ r))) =
        some (.vstr n, encodeV v ++ (encodeFields vs2 ++ r)) :=
      decode_enc_text n _ f _
        (by have := hkeys (n, t) (List.mem_cons_self _ _); exact this) (by omega)
    rw [hkey]
    dsimp only
    rw [hfind (n, t) (List.mem_cons_self _ _)]
    dsimp only
    have hn_not : n ∉ done.map Prod.fst := by
      have hdisj := List.disjoint_of_nodup_append hnd
      exact fun hmem => hdisj hmem (by simp)
    rw [zeroFields_cons, getFieldD_append_left_skip done _ n _ hn_not, getFieldD_head]
    have hval : decodeTy t (zeroOfTy t) f (encodeV v ++ (encodeFields vs2 ++ r)) =
        some (canonV v, encodeFields vs2 ++ r) :=
      hrt f _ (by show sizeV v ≤ f; omega)
    rw [hval]
    dsimp only
    rw [setField_append_left_skip done _ n _ hn_not, setField_head]
    rw [show done ++ (n, canonV v) :: zeroFields ts2 =
          (done ++ [(n, canonV v)]) ++ zeroFields ts2 from
        List.append_cons done ((n, canonV v)) (zeroFields ts2)]
    rw [ih vs2 hmatch2
        (fun a2 ha2 => hfind a2 (List.mem_cons_of_mem _ ha2))
        (fun a2 ha2 => hkeys a2 (List.mem_cons_of_mem _ ha2))
        (done ++ [(n, canonV v)]) f r (by omega)
        (by simpa [List.append_assoc] using hnd)]
    rw [show canonPairs ((n, v) :: vs2) = (n, canonV v) :: canonPairs vs2 from rfl]
    rw [List.append_cons done ((n, canonV v)) (canonPairs vs2)]

end Cbor

namespace Cbor

/-! ### The encode/decode round trip -/

/-- Packages wfFields and the round trip one level down into the
pointwise hypothesis of tyStructN_rt. -/
theorem forall2_rt_of_wf (N : Nat)
    (ihN : ∀ t v, wfT t v = true → sizeV v ≤ N →
      ∀ fuel r, sizeV v ≤ fuel →
        decodeTy t (zeroOfTy t) fuel (encodeV v ++ r) = some (canonV v, r)) :
    ∀ (ftys : List (List Nat × Ty)) (fs : List (List Nat × V)),
      wfFields ftys fs = true → sizePairs fs ≤ N →
      List.Forall₂ (fun (a : List Nat × Ty) (b : List Nat × V) =>
        a.1 = b.1 ∧ ∀ f2 r2, sizeV b.2 ≤ f2 →
          decodeTy a.2 (zeroOfTy a.2) f2 (encodeV b.2 ++ r2) =
            some (canonV b.2, r2)) ftys fs := by
  intro ftys
  induction ftys with
  | nil =>
    intro fs h hsz
    cases fs with
    | nil => exact List.Forall₂.nil
    | cons b bs => simp [wfFields] at h
  | cons a as ih =>
    obtain ⟨n1, t⟩ := a
    intro fs h hsz
    cases fs with
    | nil => simp [wfFields] at h
    | cons b bs =>
      obtain ⟨n2, v⟩ := b
      simp only [wfFields, Bool.and_eq_true, beq_iff_eq] at h
      rw [sizePairs_cons] at hsz
      have hp := sizePairs_pos bs
      refine List.Forall₂.cons ⟨h.1.1, ?_⟩ (ih bs h.2 (by omega))
      intro f2 r2 hf2
      exact ihN t v h.1.2 (by show sizeV v ≤ N; omega) f2 r2 hf2

/-- The round trip: decoding what the encoder emitted for a well-formed
caller value, into a matching freshly zeroed target, yields the value's
canonical image (map entries in emission order) and consumes exactly the
emitted bytes. -/
theorem rt_main : ∀ (N : Nat) (t : Ty) (v : V), wfT t v = true → sizeV v ≤ N →
    ∀ (fuel : Nat) (r : List Nat), sizeV v ≤ fuel →
      decodeTy t (zeroOfTy t) fuel (encodeV v ++ r) = some (canonV v, r) := by
  intro N
  induction N with
  | zero =>
    intro t v hwf hsz
    have := sizeV_pos v
    omega
  | succ N ih =>
    intro t v hwf hsz fuel r hfuel
    cases t with
    | tuint w =>
      cases v
      case vuint w2 u =>
        simp only [wfT, Bool.and_eq_true, beq_iff_eq, decide_eq_true_eq] at hwf
        obtain ⟨⟨rfl, hw⟩, hu⟩ := hwf
        have h3 : sizeV (V.vuint w u) = 3 := rfl
        rw [show encodeV (V.vuint w u) = tagAuxOut cborUint u from rfl]
        rw [decode_enc_uint w u _ fuel r hw hu (by omega)]
        rfl
      all_goals simp [wfT] at hwf
    | tint w =>
      cases v
      case vint w2 i =>
        simp only [wfT, Bool.and_eq_true, beq_iff_eq, decide_eq_true_eq] at hwf
        obtain ⟨⟨⟨rfl, hw⟩, hlo⟩, hhi⟩ := hwf
        have h3 : sizeV (V.vint w i) = 3 := rfl
        rw [show encodeV (V.vint w i) = writeInt i from rfl]
        rw [decode_enc_int w i _ fuel r hw hlo hhi (by omega)]
        rfl
      all_goals simp [wfT] at hwf
    | tfloat64 =>
      cases v
      case vf64 bits =>
        simp only [wfT, decide_eq_true_eq] at hwf
        have h3 : sizeV (V.vf64 bits) = 3 := rfl
        rw [show encodeV (V.vf64 bits) = writeFloat bits from rfl]
        rw [decode_enc_f64 bits _ fuel r hwf (by omega)]
        rfl
      all_goals simp [wfT] at hwf
    | tstr =>
      cases v
      case vstr s =>
        simp only [wfT, Bool.and_eq_true, decide_eq_true_eq] at hwf
        obtain ⟨hb, hl⟩ := hwf
        have h3 : sizeV (V.vstr s) = 3 := rfl
        rw [show encodeV (V.vstr s) = writeText s from rfl]
        rw [decode_enc_text s _ fuel r (by omega) (by omega)]
        rfl
      all_goals simp [wfT] at hwf
    | tbytes =>
      cases v
      case vbytes b =>
        simp only [wfT, Bool.and_eq_true, decide_eq_true_eq] at hwf
        obtain ⟨hb, hl⟩ := hwf
        have h3 : sizeV (V.vbytes b) = 3 := rfl
        rw [show encodeV (V.vbytes b) = writeBytes b from rfl]
        rw [decode_enc_bytes b _ fuel r (by omega) (by omega)]
        rfl
      all_goals simp [wfT] at hwf
    | tbool =>
      cases v
      case vbool b =>
        have h3 : sizeV (V.vbool b) = 3 := rfl
        rw [show encodeV (V.vbool b) = writeBool b from rfl]
        rw [decode_enc_bool b _ fuel r (by omega)]
        rfl
      all_goals simp [wfT] at hwf
    | tarr et =>
      cases v
      case varr xs =>
        simp only [wfT, Bool.and_eq_true, decide_eq_true_eq] at hwf
        obtain ⟨⟨het, hlen⟩, hlist⟩ := hwf
        have hsz3 : sizeV (V.varr xs) = 3 + sizeList xs := rfl
        have hx64 : xs.length < 2 ^ 64 := by omega
        obtain ⟨c, rest, he, hc1, hc2, hread⟩ :=
          decode_tagAuxOut cborArray xs.length mask_array hx64 (encodeList xs ++ r)
        obtain ⟨g, rfl⟩ : ∃ g, fuel = g + 3 := ⟨fuel - 3, by omega⟩
        rw [show encodeV (V.varr xs) ++ r =
              tagAuxOut cborArray xs.length ++ (encodeList xs ++ r) from by
            rw [show encodeV (V.varr xs) =
                  tagAuxOut cborArray xs.length ++ encodeList xs from rfl]
            simp [List.append_assoc]]
        rw [he, decodeTy_cons, innerTy_array _ _ _ _ _ _ _ hc1 hread]
        rw [arrayTy_tarr et _ g _ _ _ hc2]
        rw [show arrElems (zeroOfTy (Ty.tarr et)) = [] from rfl]
        have ihe : ∀ e ∈ xs, ∀ f2 r2, sizeV e ≤ f2 →
            decodeTy et (zeroOfTy et) f2 (encodeV e ++ r2) = some (canonV e, r2) := by
          intro e he2 f2 r2 hf2
          have hse := sizeList_mem e xs he2
          exact ih et e (wfList_mem et xs e he2 hlist) (by omega) f2 r2 hf2
        rw [tyArrN_rt et xs ihe g [] r (by omega)]
        dsimp only
        simp [canonV]
      all_goals simp [wfT] at hwf
    | tmap vt =>
      cases v
      case vmap kvs =>
        simp only [wfT, Bool.and_eq_true, decide_eq_true_eq] at hwf
        obtain ⟨⟨⟨hlen, hnd⟩, hkeys⟩, hpairs⟩ := hwf
        have hsz3 : sizeV (V.vmap kvs) = 3 + sizePairs kvs := rfl
        have hx64 : kvs.length < 2 ^ 64 := by omega
        obtain ⟨c, rest, he, hc1, hc2, hread⟩ :=
          decode_tagAuxOut cborMap kvs.length mask_map hx64
            (emitPairs (encodePairs (sortEntries kvs)) ++ r)
        obtain ⟨g, rfl⟩ : ∃ g, fuel = g + 3 := ⟨fuel - 3, by omega⟩
        rw [show encodeV (V.vmap kvs) ++ r =
              tagAuxOut cborMap kvs.length ++
                (emitPairs (encodePairs (sortEntries kvs)) ++ r) from by
            rw [show encodeV (V.vmap kvs) =
                  tagAuxOut cborMap kvs.length ++
                    emitPairs (sortPairs (encodePairs kvs)) from rfl,
                sortPairs_encodePairs]
            simp [List.append_assoc]]
        rw [he, decodeTy_cons, innerTy_map _ _ _ _ _ _ _ hc1 hread]
        rw [mapTy_tmap vt _ g _ _ _ hc2]
        rw [show mapElems (zeroOfTy (Ty.tmap vt)) = [] from rfl]
        have ihe : ∀ e ∈ sortEntries kvs, ∀ f2 r2, sizeV e.2 ≤ f2 →
            decodeTy vt (zeroOfTy vt) f2 (encodeV e.2 ++ r2) =
              some (canonV e.2, r2) := by
          intro e he2 f2 r2 hf2
          have hm : e ∈ kvs := sortEntries_mem e kvs he2
          have hm2 : (e.1, e.2) ∈ kvs := by simpa using hm
          have hse := sizePairs_mem e.1 e.2 kvs hm2
          exact ih vt e.2 (wfPairs_mem vt kvs e.1 e.2 hm2 hpairs) (by omega) f2 r2 hf2
        have hkeys2 : ∀ e ∈ sortEntries kvs, (e.1 : List Nat).length < 2 ^ 64 := by
          intro e he2
          have hm : e ∈ kvs := sortEntries_mem e kvs he2
          have h1 : e.1 ∈ kvs.map Prod.fst := List.mem_map.2 ⟨e, hm, rfl⟩
          simp only [wfKeys, List.all_eq_true] at hkeys
          have h2 := hkeys e.1 h1
          simp only [Bool.and_eq_true, decide_eq_true_eq] at h2
          omega
        have hnd2 : (([] : List (List Nat × V)).map Prod.fst ++
            (sortEntries kvs).map Prod.fst).Nodup := by
          simpa using sortEntries_fst_nodup kvs hnd
        rw [show kvs.length = (sortEntries kvs).length from (sortEntries_length kvs).symm]
        rw [tyMapN_rt vt (sortEntries kvs) ihe hkeys2 g [] r
            (by rw [sortEntries_sizePairs]; omega) hnd2]
        dsimp only
        rw [show canonV (V.vmap kvs) = V.vmap (sortEntries (canonPairs kvs)) from rfl,
            canonPairs_sortEntries]
        simp
      all_goals simp [wfT] at hwf
    | tstruct ftys =>
      cases v
      case vstruct fs =>
        simp only [wfT, Bool.and_eq_true, decide_eq_true_eq] at hwf
        obtain ⟨⟨⟨hlen, hfd⟩, hkeys⟩, hfields⟩ := hwf
        have hsz3 : sizeV (V.vstruct fs) = 3 + sizePairs fs := rfl
        have hx64 : fs.length < 2 ^ 64 := by omega
        obtain ⟨c, rest, he, hc1, hc2, hread⟩ :=
          decode_tagAuxOut cborMap fs.length mask_map hx64 (encodeFields fs ++ r)
        obtain ⟨g, rfl⟩ : ∃ g, fuel = g + 3 := ⟨fuel - 3, by omega⟩
        rw [show encodeV (V.vstruct fs) ++ r =
              tagAuxOut cborMap fs.length ++ (encodeFields fs ++ r) from by
            rw [show encodeV (V.vstruct fs) =
                  tagAuxOut cborMap fs.length ++ encodeFields fs from rfl]
            simp [List.append_assoc]]
        rw [he, decodeTy_cons, innerTy_map _ _ _ _ _ _ _ hc1 hread]
        rw [mapTy_tstruct ftys _ g _ _ _ hc2]
        rw [show structElems ftys (zeroOfTy (Ty.tstruct ftys)) = zeroFields ftys from rfl]
        have hnames : ftys.map Prod.fst = fs.map Prod.fst := wfFields_names ftys fs hfields
        have hfd2 : foldDistinct (ftys.map Prod.fst) = true := by rw [hnames]; exact hfd
        have hmatch := forall2_rt_of_wf N ih ftys fs hfields (by omega)
        have hfind : ∀ a ∈ ftys, structFieldFind ftys a.1 = some a := by
          intro a ha
          exact structFieldFind_self ftys a.1 a.2 hfd2 (by simpa using ha)
        have hkeys2 : ∀ a ∈ ftys, (a.1 : List Nat).length < 2 ^ 64 := by
          intro a ha
          have h1 : a.1 ∈ fs.map Prod.fst := by
            rw [← hnames]; exact List.mem_map.2 ⟨a, ha, rfl⟩
          simp only [wfKeys, List.all_eq_true] at hkeys
          have h2 := hkeys a.1 h1
          simp only [Bool.and_eq_true, decide_eq_true_eq] at h2
          omega
        have hnd2 : (([] : List (List Nat × V)).map Prod.fst ++
            ftys.map Prod.fst).Nodup := by
          simpa using foldDistinct_nodup _ hfd2
        rw [show (zeroFields ftys : List (List Nat × V)) =
              [] ++ zeroFields ftys from by simp]
        rw [tyStructN_rt ftys ftys fs hmatch hfind hkeys2 [] g r (by omega) hnd2]
        dsimp only
        simp [canonV]
      all_goals simp [wfT] at hwf

end Cbor

namespace Cbor

/-! ### The canonical image is element-wise equal to the original -/

theorem veqList_of (xs : List V) (h : ∀ v ∈ xs, VEq (canonV v) v) :
    VEqList (canonList xs) xs := by
  induction xs with
  | nil => exact VEqList.nil
  | cons v vs ih =>
    rw [show canonList (v :: vs) = canonV v :: canonList vs from rfl]
    exact VEqList.cons (h v (List.mem_cons_self _ _))
      (ih fun w hw => h w (List.mem_cons_of_mem _ hw))

theorem veqPairs_of (kvs : List (List Nat × V)) (h : ∀ e ∈ kvs, VEq (canonV e.2) e.2) :
    VEqPairs (canonPairs kvs) kvs := by
  induction kvs with
  | nil => exact VEqPairs.nil
  | cons e es ih =>
    obtain ⟨k, v⟩ := e
    rw [show canonPairs ((k, v) :: es) = (k, canonV v) :: canonPairs es from rfl]
    exact VEqPairs.cons (h (k, v) (List.mem_cons_self _ _))
      (ih fun w hw => h w (List.mem_cons_of_mem _ hw))

theorem veq_canon_bound : ∀ (N : Nat) (v : V), sizeV v ≤ N → VEq (canonV v) v := by
  intro N
  induction N with
  | zero =>
    intro v hsz
    have := sizeV_pos v
    omega
  | succ N ih =>
    intro v hsz
    cases v with
    | vuint w u => exact VEq.vuint w u
    | vint w i => exact VEq.vint w i
    | vf64 b => exact VEq.vf64 b
    | vstr s => exact VEq.vstr s
    | vbytes b => exact VEq.vbytes b
    | vbool b => exact VEq.vbool b
    | varr xs =>
      have hsz3 : sizeV (V.varr xs) = 3 + sizeList xs := rfl
      rw [show canonV (V.varr xs) = V.varr (canonList xs) from rfl]
      refine VEq.varr (veqList_of xs fun w hw => ?_)
      have := sizeList_mem w xs hw
      exact ih w (by omega)
    | vmap kvs =>
      have hsz3 : sizeV (V.vmap kvs) = 3 + sizePairs kvs := rfl
      have hpe : VEqPairs (canonPairs kvs) kvs := veqPairs_of kvs fun e he => by
        have hm2 : (e.1, e.2) ∈ kvs := by simpa using he
        have := sizePairs_mem e.1 e.2 kvs hm2
        exact ih e.2 (by omega)
      rw [show canonV (V.vmap kvs) = V.vmap (sortEntries (canonPairs kvs)) from rfl]
      exact VEq.vmap (sortEntries_perm (canonPairs kvs)) hpe
    | vstruct fs =>
      have hsz3 : sizeV (V.vstruct fs) = 3 + sizePairs fs := rfl
      rw [show canonV (V.vstruct fs) = V.vstruct (canonPairs fs) from rfl]
      refine VEq.vstruct (veqPairs_of fs fun e he => ?_)
      have hm2 : (e.1, e.2) ∈ fs := by simpa using he
      have := sizePairs_mem e.1 e.2 fs hm2
      exact ih e.2 (by omega)

theorem veq_canon (v : V) : VEq (canonV v) v :=
  veq_canon_bound (sizeV v) v (le_refl _)

end Cbor

namespace Cbor

theorem canonList_length (xs : List V) : (canonList xs).length = xs.length := by
  induction xs with
  | nil => rfl
  | cons v vs ih =>
    rw [show canonList (v :: vs) = canonV v :: canonList vs from rfl]
    simp [ih]

/-! ### The claims -/

/-- C1 (amended): for every caller value of a supported shape that is
well-formed — in particular struct field names pairwise distinct under
case folding and map keys distinct (wfT) — decoding the bytes produced
by the encoder into a matching freshly zeroed target succeeds, consumes
exactly the emitted bytes, and yields a value element-wise equal to the
original, with map contents compared as entry sets and floats compared
by bit pattern. -/
theorem C1_roundtrip (t : Ty) (v : V) (hwf : wfT t v = true)
    (fuel : Nat) (r : List Nat) (hf : sizeV v ≤ fuel) :
    ∃ w, decodeTy t (zeroOfTy t) fuel (encodeV v ++ r) = some (w, r) ∧ VEq w v :=
  ⟨canonV v, rt_main (sizeV v) t v hwf (le_refl _) fuel r hf, veq_canon v⟩

/-- C1 witness: the round trip at a two-entry map inserted in reverse
key order. -/
theorem C1_roundtrip_witness :
    ∃ w, decodeTy (.tmap (.tuint 64)) (zeroOfTy (.tmap (.tuint 64))) 20
        (encodeV (.vmap [([98], .vuint 64 2), ([97], .vuint 64 1)]) ++ []) =
      some (w, []) ∧ VEq w (.vmap [([98], .vuint 64 2), ([97], .vuint 64 1)]) :=
  C1_roundtrip (.tmap (.tuint 64)) (.vmap [([98], .vuint 64 2), ([97], .vuint 64 1)])
    (by rfl) 20 [] (by decide)

/-- C1 counterexample to the original claim: the struct value with
fields "FOO" = 1 and "Foo" = 2 is a shape the encoder supports, but on
decode ReflectValueForKey binds both wire keys to the first field via
strings.EqualFold, so the round trip yields FOO = 2, Foo = 0 — not
element-wise equal to the original value. -/
theorem C1_counterexample :
    ∃ w, decodeTy (.tstruct [([70, 79, 79], .tuint 64), ([70, 111, 111], .tuint 64)])
        (zeroOfTy (.tstruct [([70, 79, 79], .tuint 64), ([70, 111, 111], .tuint 64)])) 20
        (encodeV (.vstruct [([70, 79, 79], .vuint 64 1), ([70, 111, 111], .vuint 64 2)])) =
      some (w, []) ∧
      ¬ VEq w (.vstruct [([70, 79, 79], .vuint 64 1), ([70, 111, 111], .vuint 64 2)]) := by
  refine ⟨.vstruct [([70, 79, 79], .vuint 64 2), ([70, 111, 111], .vuint 64 0)], by rfl, ?_⟩
  intro h
  cases h with
  | vstruct hp =>
    cases hp with
    | cons h1 hp2 => cases h1

/-- C2 (code bug): tagAuxOut's follow-on form is chosen with the strict
comparisons x < 0x0ff, x < 0x0ffff and x < 0x0ffffffff, so for
x = 2^8 − 1, 2^16 − 1 and 2^32 − 1 it skips the minimal form: 255 is
emitted as the three-byte info-25 form although the two-byte info-24
form represents it. -/
theorem C2_not_minimal :
    tagAuxOut 0 255 = [25, 0, 255] ∧
    tagAuxOut 0 65535 = [26, 0, 0, 255, 255] ∧
    tagAuxOut 0 4294967295 = [27, 0, 0, 0, 0, 255, 255, 255, 255] :=
  ⟨rfl, rfl, rfl⟩

/-- C3: the encoder serializes a mapping by pre-encoding every key,
sorting the (encoded key, encoded value) table with cborKeySorter.Less
— which strips each encoded key to its payload and orders by payload
length, then lexicographically — and emitting each sorted pre-encoded
key followed by its value; the payload of an encoded text key is the
key itself, and {"b": 2, "a": 1} encodes to a2 61 61 01 61 62 02 with
key "a" first. -/
theorem C3_map_key_sorting :
    (∀ kvs : List (List Nat × V),
      encodeV (.vmap kvs) =
        tagAuxOut cborMap kvs.length ++ emitPairs (sortPairs (encodePairs kvs)) ∧
      (sortPairs (encodePairs kvs)).Perm (encodePairs kvs) ∧
      List.Sorted keyPairLe (sortPairs (encodePairs kvs))) ∧
    (∀ k : List Nat, keyBytesFromEncoded (writeText k) = k) ∧
    encodeV (.vmap [([98], .vuint 64 2), ([97], .vuint 64 1)]) =
      [0xa2, 0x61, 0x61, 0x01, 0x61, 0x62, 0x02] :=
  ⟨fun kvs => ⟨rfl, sortPairs_perm _, sortPairs_sorted _⟩,
   keyBytes_writeText, rfl⟩

/-- C4 (amended): encoding a mapping is deterministic in its entry set
when the pre-encoded keys strip to pairwise distinct payloads: any two
enumeration orders of the same sorted entry table produce byte-identical
output; in particular, for a string-keyed map with pairwise distinct
keys (whose encoded-key payloads are the keys themselves), two
independent Encodes are byte-identical.  When payloads tie — as for
integer keys, which all strip to the empty payload — determinism fails
(C4 counterexample). -/
theorem C4_deterministic :
    (∀ (pairs1 pairs2 : List (List Nat × List Nat)), pairs1.Perm pairs2 →
      pairs1.Pairwise payloadNe →
      tagAuxOut cborMap pairs1.length ++ emitPairs (sortPairs pairs1) =
        tagAuxOut cborMap pairs2.length ++ emitPairs (sortPairs pairs2)) ∧
    (∀ (kvs1 kvs2 : List (List Nat × V)), kvs1.Perm kvs2 →
      (kvs1.map Prod.fst).Nodup →
      encodeV (.vmap kvs1) = encodeV (.vmap kvs2)) := by
  constructor
  · intro p1 p2 hperm hnd
    rw [hperm.length_eq, sortPairs_congr p1 p2 hperm hnd]
  · intro kvs1 kvs2 hperm hnd
    rw [show encodeV (V.vmap kvs1) =
          tagAuxOut cborMap kvs1.length ++ emitPairs (sortPairs (encodePairs kvs1)) from rfl,
        show encodeV (V.vmap kvs2) =
          tagAuxOut cborMap kvs2.length ++ emitPairs (sortPairs (encodePairs kvs2)) from rfl]
    rw [hperm.length_eq]
    rw [sortPairs_congr (encodePairs kvs1) (encodePairs kvs2)
        (by rw [encodePairs_eq_map, encodePairs_eq_map]; exact hperm.map _)
        (encodePairs_payloadNe kvs1 hnd)]

/-- C4 witness: the two insertion orders of the string-keyed map
{"a": 1, "b": 2} encode identically. -/
theorem C4_witness :
    encodeV (.vmap [([97], .vuint 64 1), ([98], .vuint 64 2)]) =
      encodeV (.vmap [([98], .vuint 64 2), ([97], .vuint 64 1)]) :=
  C4_deterministic.2 _ _ (List.Perm.swap _ _ _) (by decide)

/-- C4 counterexample to the original claim: the uint-keyed mapping
{1: 1, 2: 2} has a fixed key set, but its encoded keys 01 and 02 both
strip to the empty payload, so cborKeySorter.Less is false in both
directions and the sort leaves the entries in enumeration order; the
two enumeration orders the randomized Go map iteration can produce
yield different bytes: a2 01 01 02 02 versus a2 02 02 01 01. -/
theorem C4_counterexample :
    [((1 : Nat), V.vuint 64 1), (2, V.vuint 64 2)].Perm
      [(2, V.vuint 64 2), (1, V.vuint 64 1)] ∧
    keyBytesFromEncoded (tagAuxOut cborUint 1) = [] ∧
    keyBytesFromEncoded (tagAuxOut cborUint 2) = [] ∧
    encodeUintMap [(1, .vuint 64 1), (2, .vuint 64 2)] = [0xa2, 1, 1, 2, 2] ∧
    encodeUintMap [(2, .vuint 64 2), (1, .vuint 64 1)] = [0xa2, 2, 2, 1, 1] ∧
    encodeUintMap [(1, .vuint 64 1), (2, .vuint 64 2)] ≠
      encodeUintMap [(2, .vuint 64 2), (1, .vuint 64 1)] :=
  ⟨List.Perm.swap _ _ _, rfl, rfl, rfl, rfl, by decide⟩

/-- C5 (amended): the negative-integer bignum threshold is strict: for
aux ≤ 2^63 − 1 (denoted magnitude up to and including 2^63) the decoder
deposits the signed value −1 − aux with SetInt; only aux > 2^63 − 1
(magnitude strictly above 2^63) produces a bignum. -/
theorem C5_bignum_threshold (aux : Nat) (s1 : List Nat) :
    (aux ≤ 2 ^ 63 - 1 →
      negintGen aux s1 = some (.vint (-1 - (aux : Int)), s1)) ∧
    (2 ^ 63 - 1 < aux →
      negintGen aux s1 = some (.vbignum (-1 - (aux : Int)), s1)) := by
  constructor
  · intro h
    unfold negintGen
    rw [if_neg (by omega)]
    have ht : toInt64 aux = (aux : Int) := by
      unfold toInt64
      rw [if_pos (by omega)]
    rw [ht]
  · intro h
    unfold negintGen
    rw [if_pos (by omega)]

/-- C5 witness: the threshold theorem applied at aux = 2^63 − 1. -/
theorem C5_witness :
    negintGen (2 ^ 63 - 1) [] = some (.vint (-1 - ((2 ^ 63 - 1 : Nat) : Int)), []) :=
  (C5_bignum_threshold (2 ^ 63 - 1) []).1 (le_refl _)

/-- C5 counterexample to the original claim: the wire item
3b 7f ff ff ff ff ff ff ff (major type 1, aux = 2^63 − 1, denoted value
−2^63) decodes to the int64 −2^63, not to a bignum. -/
theorem C5_counterexample :
    decodeGen 3 [0x3b, 0x7f, 0xff, 0xff, 0xff, 0xff, 0xff, 0xff, 0xff] =
      some (.vint (-(2 ^ 63)), []) := rfl

/-- C6 (code bug): the reserved info values 28, 29 and 30 are not
treated as an error: handleInfoBits falls through to `return 0, nil`,
so the lone initial bytes 0x1c, 0x1d and 0x1e decode successfully to
the unsigned value 0 instead of failing. -/
theorem C6_reserved_info_not_error :
    (∀ s : List Nat, handleInfoBits 28 s = some (0, s) ∧
      handleInfoBits 29 s = some (0, s) ∧ handleInfoBits 30 s = some (0, s)) ∧
    decodeGen 2 [0x1c] = some (.vuint 0, []) ∧
    decodeGen 2 [0x1d] = some (.vuint 0, []) ∧
    decodeGen 2 [0x1e] = some (.vuint 0, []) :=
  ⟨fun s => ⟨rfl, rfl, rfl⟩, rfl, rfl, rfl⟩

/-- C7: depositing an unsigned u into a w-bit unsigned target fails
exactly when u overflows the width; into a w-bit signed target exactly
when u = 2^64 − 1 or the int64 interpretation of u overflows the width;
and a bignum deposits into a native signed 32- or 64-bit target exactly
when its bit length is strictly below the width, failing otherwise. -/
theorem C7_deposit_rules : ∀ (w u : Nat) (z : Int),
    (setUintTy (.tuint w) u = none ↔ 2 ^ w - 1 < u) ∧
    (setUintTy (.tint w) u = none ↔
      u = 2 ^ 64 - 1 ∨ toInt64 u < -(2 ^ (w - 1)) ∨ 2 ^ (w - 1) - 1 < toInt64 u) ∧
    (setBignumTy (.tint 32) z = some (.vint 32 z) ↔ bitLen z < 32) ∧
    (setBignumTy (.tint 64) z = some (.vint 64 z) ↔ bitLen z < 64) ∧
    (setBignumTy (.tint 32) z = none ↔ ¬ bitLen z < 32) ∧
    (setBignumTy (.tint 64) z = none ↔ ¬ bitLen z < 64) := by
  intro w u z
  refine ⟨?_, ?_, ?_, ?_, ?_, ?_⟩
  · unfold setUintTy overflowUint
    dsimp only
    split_ifs with h
    · simp only [decide_eq_true_eq] at h
      simp [h]
    · simp only [decide_eq_true_eq] at h
      simp [h]
  · unfold setUintTy overflowInt
    dsimp only
    split_ifs with h
    · simp only [Bool.or_eq_true, decide_eq_true_eq] at h
      refine iff_of_true rfl ?_
      rcases h with h1 | h2
      · left; omega
      · right; exact h2
    · simp only [Bool.or_eq_true, decide_eq_true_eq, not_or] at h
      refine iff_of_false (by simp) ?_
      rintro (h1 | h2 | h3)
      · exact absurd (by omega : u = 0xffffffffffffffff) h.1
      · exact absurd h2 h.2.1
      · exact absurd h3 h.2.2
  · unfold setBignumTy
    dsimp only
    split_ifs with h
    · simp [h]
    · simp [h]
  · unfold setBignumTy
    dsimp only
    split_ifs with h
    · simp [h]
    · simp [h]
  · unfold setBignumTy
    dsimp only
    split_ifs with h
    · simp [h]
    · simp [h]
  · unfold setBignumTy
    dsimp only
    split_ifs with h
    · simp [h]
    · simp [h]

/-- C8: the half-float branch computes exactly the value the
specification describes (exponent/mantissa split, subnormal, normal,
infinity and NaN cases, sign from bit 15); at the wire level the bytes
f9 b0 b1 decode to that half value for the 16-bit payload b0b1, and
f9 3e 00 decodes to 1.5. -/
theorem C8_half_float :
    (∀ aux : Nat, decodeHalf aux = halfSpec aux) ∧
    (∀ (b0 b1 f : Nat) (r : List Nat),
      decodeGen (f + 2) (0xf9 :: b0 :: b1 :: r) =
        some (.vhalf (decodeHalf ((b0 <<< 8) ||| b1)), r)) ∧
    decodeGen 2 [0xf9, 0x3e, 0x00] = some (.vhalf (.fin (3 / 2)), []) := by
  refine ⟨fun aux => rfl, ?_, ?_⟩
  · intro b0 b1 f r
    rw [decodeGen_cons]
    rw [innerGen_7 f 0xf9 (b0 :: b1 :: r) ((b0 <<< 8) ||| b1) r (by decide)
        (by rw [show ((0xf9 : Nat) &&& infoBits) = 25 from by decide]
            exact handleInfoBits_25 b0 b1 r)]
    rfl
  · rw [show decodeGen 2 [0xf9, 0x3e, 0x00] =
          some (.vhalf (decodeHalf 0x3e00), []) from rfl]
    have h : decodeHalf 0x3e00 = HalfVal.fin (3 / 2) := by
      unfold decodeHalf
      simp only [show (0x3e00 : Nat) >>> 10 &&& 0x01f = 15 from by decide,
                 show (0x3e00 : Nat) &&& 0x03ff = 512 from by decide,
                 show (0x3e00 : Nat) &&& 0x08000 = 0 from by decide]
      norm_num
    rw [h]

/-- C9: in the struct map loop, an entry whose decoded key binds to no
field has its value fully decoded into a throwaway dynamic cell and
discarded: the loop consumes the value's bytes and continues on the
remaining entries with the field values untouched, raising no error. -/
theorem C9_unbound_key_discarded (ftys : List (List Nat × Ty)) (f n : Nat)
    (fvals : List (List Nat × V)) (k : List Nat) (s s1 s2 : List Nat) (gv : GoValue)
    (hkey : decodeTy .tstr (zeroOfTy .tstr) f s = some (.vstr k, s1))
    (hfind : structFieldFind ftys k = none)
    (hval : decodeGen f s1 = some (gv, s2)) :
    tyStructN ftys (f + 1) (n + 1) fvals s = tyStructN ftys f n fvals s2 := by
  rw [tyStructN_succ, hkey]
  dsimp only
  rw [hfind]
  dsimp only
  rw [hval]

/-- C9 witness: struct {a: uint64}; the wire entry "zz": 7 binds to no
field, its value byte 07 is consumed and the loop continues at the
remaining entry bytes with the field values unchanged. -/
theorem C9_witness :
    tyStructN [([97], .tuint 64)] 6 2 [([97], .vuint 64 0)]
        [0x62, 122, 122, 7, 0x61, 97, 5] =
      tyStructN [([97], .tuint 64)] 5 1 [([97], .vuint 64 0)] [0x61, 97, 5] :=
  C9_unbound_key_discarded [([97], .tuint 64)] 5 1 [([97], .vuint 64 0)]
    [122, 122] [0x62, 122, 122, 7, 0x61, 97, 5] [7, 0x61, 97, 5] [0x61, 97, 5]
    (.vuint 7) (by rfl) (by rfl) (by rfl)

/-- C10: decoding a CBOR array, definite or indefinite, into a slice
target holding existing elements appends the decoded elements after the
existing ones; the resulting length is the old length plus the element
count. -/
theorem C10_slice_append (et : Ty) (old vs : List V) (fuel : Nat) (r : List Nat)
    (hwf : wfList et vs = true) (hlen : vs.length < 2 ^ 64)
    (hf : 3 + sizeList vs ≤ fuel) :
    decodeTy (.tarr et) (.varr old) fuel
        (tagAuxOut cborArray vs.length ++ (encodeList vs ++ r)) =
      some (.varr (old ++ canonList vs), r) ∧
    decodeTy (.tarr et) (.varr old) fuel
        (0x9f :: (encodeList vs ++ (0xff :: r))) =
      some (.varr (old ++ canonList vs), r) ∧
    (old ++ canonList vs).length = old.length + vs.length := by
  have ihe : ∀ e ∈ vs, ∀ f2 r2, sizeV e ≤ f2 →
      decodeTy et (zeroOfTy et) f2 (encodeV e ++ r2) = some (canonV e, r2) := by
    intro e he f2 r2 hf2
    exact rt_main (sizeV e) et e (wfList_mem et vs e he hwf) (le_refl _) f2 r2 hf2
  obtain ⟨g, rfl⟩ : ∃ g, fuel = g + 3 := ⟨fuel - 3, by omega⟩
  refine ⟨?_, ?_, ?_⟩
  · obtain ⟨c, rest, he, hc1, hc2, hread⟩ :=
      decode_tagAuxOut cborArray vs.length mask_array hlen (encodeList vs ++ r)
    rw [he, decodeTy_cons, innerTy_array _ _ _ _ _ _ _ hc1 hread]
    rw [arrayTy_tarr et _ g _ _ _ hc2]
    rw [show arrElems (V.varr old) = old from rfl]
    rw [tyArrN_rt et vs ihe g old r (by omega)]
  · rw [decodeTy_cons]
    have hread : handleInfoBits ((0x9f : Nat) &&& infoBits)
        (encodeList vs ++ (0xff :: r)) = some (0, encodeList vs ++ (0xff :: r)) := by
      rw [show ((0x9f : Nat) &&& infoBits) = 31 from by decide]
      rfl
    rw [innerTy_array _ _ _ _ _ _ _ (by decide) hread]
    rw [show ((0x9f : Nat) &&& infoBits) = varFollows from by decide]
    rw [arrayTy_tarr_var et _ g 0 (encodeList vs ++ (0xff :: r))]
    rw [show arrElems (V.varr old) = old from rfl]
    rw [tyArrVar_rt et vs ihe g old r (by omega)]
  · simp [canonList_length]

/-- C10 witness: a slice already holding one element receives two more
from a definite and from an indefinite array. -/
theorem C10_witness :
    decodeTy (.tarr (.tuint 64)) (.varr [.vuint 64 9]) 20
        (tagAuxOut cborArray 2 ++ (encodeList [.vuint 64 1, .vuint 64 2] ++ [])) =
      some (.varr [.vuint 64 9, .vuint 64 1, .vuint 64 2], []) ∧
    decodeTy (.tarr (.tuint 64)) (.varr [.vuint 64 9]) 20
        (0x9f :: (encodeList [.vuint 64 1, .vuint 64 2] ++ (0xff :: []))) =
      some (.varr [.vuint 64 9, .vuint 64 1, .vuint 64 2], []) ∧
    ([V.vuint 64 9] ++ canonList [V.vuint 64 1, V.vuint 64 2]).length = 1 + 2 :=
  C10_slice_append (.tuint 64) [.vuint 64 9] [.vuint 64 1, .vuint 64 2] 20 []
    (by rfl) (by decide) (by decide)

end Cbor
